import Mathlib

/-!
# A limit order book and its matching engine

Shallow embedding of `include/types.hpp`, `include/price_level.hpp`,
`src/price_level.cpp` and `src/order_book.cpp`.

* `Price` and `Qty` are `int64_t` in the source.  The source compares prices but never
  computes with them.  Every addition and subtraction of quantities (`+=`, `-=`, `-`) is
  modelled as the mathematical operation followed by `wrap64`, the reduction modulo `2^64`
  into the range of `int64_t`: signed overflow is undefined behaviour in C++, and two's
  complement wrap-around is what the compiled code does.  `OrderId` and `TimeNs` are
  `uint64_t`; the source never does arithmetic on them.
* `Order` objects live on the free store.  The model keeps them in an explicit heap
  keyed by address; `new` hands out a fresh address, `delete` removes the entry.
  Reading or writing through a pointer whose target is not allocated is undefined
  behaviour and is reported as `Fault.undefined_behaviour`.
* The two ladders are `std::map`s.  They are modelled as key-ordered association lists
  whose first entry is `begin()`.  Every `PriceLevel` object carries its own address
  (`self`), so that the back pointer `Order::level` can dangle once the map node is erased.
* The model follows the build with `NDEBUG` defined, in which `validate()` is compiled out.
* Loops are structural recursions on a fuel argument; `add_returns` shows that the fuel
  supplied by the callers is never exhausted on a reachable book.
-/

namespace OrderBookSim

/-! ## Scalars (`types.hpp`) -/

abbrev Price := Int
abbrev Qty := Int
abbrev OrderId := Nat
abbrev TimeNs := Nat

/-- Address of an `Order` object. -/
abbrev OrderPtr := Nat

/-- Address of a `PriceLevel` object, that is of a node of one of the two maps. -/
abbrev LevelPtr := Nat

/-- Value of `std::numeric_limits<Price>::max()`. -/
def PRICE_MAX : Price := 9223372036854775807

/-- Value of `std::numeric_limits<Price>::min()`. -/
def PRICE_MIN : Price := -9223372036854775808

/-- Value of `std::numeric_limits<Qty>::max()`. -/
def QTY_MAX : Qty := 9223372036854775807

/-- Value of `std::numeric_limits<Qty>::min()`. -/
def QTY_MIN : Qty := -9223372036854775808

/-- The `int64_t` value that stands for the mathematical result `x` of an addition or a
subtraction of two `int64_t` values: the representative of `x` modulo `2^64` between
`QTY_MIN` and `QTY_MAX`. -/
def wrap64 (x : Int) : Int :=
  (x + 9223372036854775808) % 18446744073709551616 - 9223372036854775808

inductive Side where
  | BUY
  | SELL
deriving DecidableEq, Repr

/-- Mirror of `opposite(Side)` in `types.hpp`. -/
def opposite : Side → Side
  | .BUY => .SELL
  | .SELL => .BUY

/-- Mirror of `struct Trade`. -/
structure Trade where
  taker_id : OrderId
  maker_id : OrderId
  taker_side : Side
  price : Price
  qty : Qty
  ts : TimeNs
deriving DecidableEq, Repr

/-- Mirror of `struct Order` (`price_level.hpp`); null pointers are `none`. -/
structure Order where
  id : OrderId
  side : Side
  px : Price
  qty : Qty
  ts : TimeNs
  prev : Option OrderPtr
  next : Option OrderPtr
  level : Option LevelPtr
deriving DecidableEq, Repr

/-- Mirror of `struct PriceLevel`; `self` is the address of the object (`this`). -/
structure PriceLevel where
  self : LevelPtr
  price : Price
  head : Option OrderPtr
  tail : Option OrderPtr
  total_qty : Qty
deriving DecidableEq, Repr

/-- Ways in which a call can fail to return normally. -/
inductive Fault where
  | undefined_behaviour
  | bad_optional_access
  | out_of_fuel
deriving DecidableEq, Repr

/-! ## Association lists: the heap, the index and the ladders -/

/-- First value stored under key `k`. -/
def AL.find {κ ν : Type} [DecidableEq κ] : List (κ × ν) → κ → Option ν
  | [], _ => none
  | (k', v) :: t, k => if k' = k then some v else AL.find t k

/-- Apply `f` to the value stored under key `k`. -/
def AL.modify {κ ν : Type} [DecidableEq κ] (l : List (κ × ν)) (k : κ) (f : ν → ν) : List (κ × ν) :=
  l.map (fun e => if e.1 = k then (e.1, f e.2) else e)

/-- Remove key `k`. -/
def AL.erase {κ ν : Type} [DecidableEq κ] (l : List (κ × ν)) (k : κ) : List (κ × ν) :=
  l.filter (fun e => decide (e.1 ≠ k))

abbrev Heap := List (OrderPtr × Order)
abbrev Index := List (OrderId × OrderPtr)
abbrev Ladder := List (Price × PriceLevel)

/-- Key order of the ladder of a side: `std::greater` for bids, `std::less` for asks. -/
def key_before : Side → Price → Price → Bool
  | .BUY, a, b => decide (a > b)
  | .SELL, a, b => decide (a < b)

/-- Insert a new key at its place in the key order of the ladder. -/
def Ladder.insert (s : Side) : Ladder → Price → PriceLevel → Ladder
  | [], px, lvl => [(px, lvl)]
  | (k, v) :: t, px, lvl =>
    if key_before s px k then (px, lvl) :: (k, v) :: t else (k, v) :: Ladder.insert s t px lvl

/-- Model of `order_index_.emplace(id, o)`: no effect when the key is already present. -/
def Index.emplace (ix : Index) (id : OrderId) (o : OrderPtr) : Index :=
  match AL.find ix id with
  | some _ => ix
  | none => (id, o) :: ix

/-! ## The book -/

/-- State of an `OrderBook` together with the free store of its `Order` objects. -/
structure Book where
  buy_ : Ladder
  sell_ : Ladder
  order_index_ : Index
  heap : Heap
  next_order : OrderPtr
  next_level : LevelPtr
deriving DecidableEq, Repr

/-- A default-constructed `OrderBook`. -/
def Book.empty : Book :=
  { buy_ := [], sell_ := [], order_index_ := [], heap := [], next_order := 1, next_level := 1 }

/-- The ladder of a side. -/
def Book.ladder (b : Book) : Side → Ladder
  | .BUY => b.buy_
  | .SELL => b.sell_

/-- Replace the ladder of a side. -/
def Book.set_ladder (b : Book) (s : Side) (l : Ladder) : Book :=
  match s with
  | .BUY => { b with buy_ := l }
  | .SELL => { b with sell_ := l }

/-- The `PriceLevel` object a level pointer refers to, if that map node still exists. -/
def Book.level_at (b : Book) (p : LevelPtr) : Option PriceLevel :=
  match b.buy_.find? (fun e => decide (e.2.self = p)) with
  | some e => some e.2
  | none =>
    match b.sell_.find? (fun e => decide (e.2.self = p)) with
    | some e => some e.2
    | none => none

/-- Write `lvl` back into the `PriceLevel` object at address `p`. -/
def Book.store_level (b : Book) (p : LevelPtr) (lvl : PriceLevel) : Book :=
  { b with
    buy_ := b.buy_.map (fun e => if e.2.self = p then (e.1, lvl) else e)
    sell_ := b.sell_.map (fun e => if e.2.self = p then (e.1, lvl) else e) }

/-! ## `PriceLevel` (`price_level.hpp`, `price_level.cpp`) -/

/-- Model of `PriceLevel::empty()`: `head == nullptr`. -/
def PriceLevel.empty (lvl : PriceLevel) : Bool := lvl.head.isNone

/-- Model of `PriceLevel::push_back(o)`.  The statements are, in order: `o->prev = tail`,
`o->next = nullptr`, `o->level = this`, `if (tail) tail->next = o`, `tail = o`,
`total_qty += o->qty`.  `head` is not assigned. -/
def PriceLevel.push_back (lvl : PriceLevel) (h : Heap) (o : OrderPtr) :
    Except Fault (PriceLevel × Heap) :=
  match AL.find h o with
  | none => .error .undefined_behaviour
  | some ord =>
    let h1 := AL.modify h o (fun x => { x with prev := lvl.tail, next := none, level := some lvl.self })
    match lvl.tail with
    | none => .ok ({ lvl with tail := some o, total_qty := wrap64 (lvl.total_qty + ord.qty) }, h1)
    | some t =>
      match AL.find h1 t with
      | none => .error .undefined_behaviour
      | some _ =>
        .ok ({ lvl with tail := some o, total_qty := wrap64 (lvl.total_qty + ord.qty) },
             AL.modify h1 t (fun x => { x with next := some o }))

/-- Model of `PriceLevel::remove(o)`.  The statements are, in order:
`if (o->prev) o->prev->next = o->next; else head = o->next;`,
`if (o->next) o->next->prev = o->prev; else tail = o->prev;`,
`total_qty -= o->qty`, `o->prev = o->next = nullptr`, `o->level = nullptr`. -/
def PriceLevel.remove (lvl : PriceLevel) (h : Heap) (o : OrderPtr) :
    Except Fault (PriceLevel × Heap) :=
  match AL.find h o with
  | none => .error .undefined_behaviour
  | some ord =>
    let step1 : Except Fault (PriceLevel × Heap) :=
      match ord.prev with
      | some p =>
        match AL.find h p with
        | none => .error .undefined_behaviour
        | some _ => .ok (lvl, AL.modify h p (fun x => { x with next := ord.next }))
      | none => .ok ({ lvl with head := ord.next }, h)
    match step1 with
    | .error e => .error e
    | .ok (lvl1, h1) =>
      let step2 : Except Fault (PriceLevel × Heap) :=
        match ord.next with
        | some n =>
          match AL.find h1 n with
          | none => .error .undefined_behaviour
          | some _ => .ok (lvl1, AL.modify h1 n (fun x => { x with prev := ord.prev }))
        | none => .ok ({ lvl1 with tail := ord.prev }, h1)
      match step2 with
      | .error e => .error e
      | .ok (lvl2, h2) =>
        .ok ({ lvl2 with total_qty := wrap64 (lvl2.total_qty - ord.qty) },
             AL.modify h2 o (fun x => { x with prev := none, next := none, level := none }))

/-! ## Private helpers of `OrderBook` -/

/-- Model of `OrderBook::create_order`: allocate an `Order` with null links. -/
def create_order (b : Book) (id : OrderId) (side : Side) (px : Price) (qty : Qty) (ts : TimeNs) :
    Book × OrderPtr :=
  ({ b with
     heap := (b.next_order,
       { id := id, side := side, px := px, qty := qty, ts := ts,
         prev := none, next := none, level := none }) :: b.heap
     next_order := b.next_order + 1 },
   b.next_order)

/-- Model of `OrderBook::destroy_order`: `delete o`. -/
def destroy_order (b : Book) (o : OrderPtr) : Book :=
  { b with heap := AL.erase b.heap o }

/-- Model of `OrderBook::get_or_create_level`: `try_emplace(px)` on the ladder of the side, the
price field being set when the node was inserted.  Returns the book and the level. -/
def get_or_create_level (b : Book) (side : Side) (px : Price) : Book × PriceLevel :=
  match AL.find (b.ladder side) px with
  | some lvl => (b, lvl)
  | none =>
    let lvl : PriceLevel :=
      { self := b.next_level, price := px, head := none, tail := none, total_qty := 0 }
    ({ b.set_ladder side (Ladder.insert side (b.ladder side) px lvl) with
       next_level := b.next_level + 1 }, lvl)

/-- Model of `OrderBook::erase_level_if_empty`. -/
def erase_level_if_empty (b : Book) (side : Side) (px : Price) : Book :=
  match AL.find (b.ladder side) px with
  | some lvl => if lvl.empty then b.set_ladder side (AL.erase (b.ladder side) px) else b
  | none => b

/-- Model of `OrderBook::best_price`. -/
def best_price (b : Book) (side : Side) : Option Price :=
  match b.ladder side with
  | [] => none
  | (k, _) :: _ => some k

/-- Model of `OrderBook::index_insert`, for an order whose id field holds `id`. -/
def index_insert (b : Book) (id : OrderId) (o : OrderPtr) : Book :=
  { b with order_index_ := Index.emplace b.order_index_ id o }

/-- Model of `OrderBook::index_erase`, for an order whose id field holds `id`. -/
def index_erase (b : Book) (id : OrderId) : Book :=
  { b with order_index_ := AL.erase b.order_index_ id }

/-! ## Queries -/

/-- Model of `OrderBook::best_bid`. -/
def best_bid (b : Book) : Option Price := best_price b .BUY

/-- Model of `OrderBook::best_ask`. -/
def best_ask (b : Book) : Option Price := best_price b .SELL

/-- Model of `OrderBook::depth_at`. -/
def depth_at (b : Book) (s : Side) (px : Price) : Qty :=
  match AL.find (b.ladder s) px with
  | none => 0
  | some lvl => lvl.total_qty

/-! ## Matching -/

/-- The test that ends the outer loop on price: `ask_lvl.price > taker_price` for a buying
taker, `bid_lvl.price < taker_price` for a selling taker. -/
def no_cross : Side → Price → Price → Bool
  | .BUY, level_price, taker_price => decide (level_price > taker_price)
  | .SELL, level_price, taker_price => decide (level_price < taker_price)

/-- The inner loop of the two matching routines,
`while (taker_qty > 0 && lvl.head) { ... }`, run on the level `lvl`.
`side` is the side of the taker.  The trade is emitted with `taker_id` 0, as in the source.
The first argument bounds the number of iterations; an iteration that is followed by another
one with a positive taker quantity has freed an order. -/
def match_level (side : Side) (ts : TimeNs) :
    Nat → Heap → Index → PriceLevel → Qty → List Trade →
      Except Fault (Heap × Index × PriceLevel × Qty × List Trade)
  | 0, _, _, _, _, _ => .error .out_of_fuel
  | fuel + 1, h, ix, lvl, taker_qty, out =>
    if taker_qty > 0 then
      match lvl.head with
      | none => .ok (h, ix, lvl, taker_qty, out)
      | some maker =>
        match AL.find h maker with
        | none => .error .undefined_behaviour
        | some m =>
          let traded := min taker_qty m.qty
          let out1 := out ++ [{ taker_id := 0, maker_id := m.id, taker_side := side,
                                price := lvl.price, qty := traded, ts := ts }]
          let h1 := AL.modify h maker (fun x => { x with qty := wrap64 (x.qty - traded) })
          let lvl1 := { lvl with total_qty := wrap64 (lvl.total_qty - traded) }
          let taker_qty1 := wrap64 (taker_qty - traded)
          if wrap64 (m.qty - traded) = 0 then
            match PriceLevel.remove lvl1 h1 maker with
            | .error e => .error e
            | .ok (lvl2, h2) =>
              match_level side ts fuel (AL.erase h2 maker) (AL.erase ix m.id) lvl2 taker_qty1 out1
          else match_level side ts fuel h1 ix lvl1 taker_qty1 out1
    else .ok (h, ix, lvl, taker_qty, out)

/-- The outer loop of the two matching routines, `while (taker_qty > 0) { ... }`, for a
taker on `side` against the ladder of the opposite side: stop on an empty ladder, take
`begin()`, stop on price, run the inner loop, erase the level when `empty()`.
The first argument bounds the number of iterations; an iteration that is followed by another
one with a positive taker quantity has erased a level. -/
def match_against (side : Side) (taker_price : Price) (ts : TimeNs) :
    Nat → Book → Qty → List Trade → Except Fault (Book × Qty × List Trade)
  | 0, _, _, _ => .error .out_of_fuel
  | fuel + 1, b, taker_qty, out =>
    if taker_qty > 0 then
      match b.ladder (opposite side) with
      | [] => .ok (b, taker_qty, out)
      | (k, lvl) :: rest =>
        if no_cross side lvl.price taker_price then .ok (b, taker_qty, out)
        else
          match match_level side ts (b.heap.length + 1) b.heap b.order_index_ lvl taker_qty out with
          | .error e => .error e
          | .ok (h, ix, lvl1, taker_qty1, out1) =>
            let b1 := { b with heap := h, order_index_ := ix }
            if lvl1.empty then
              match_against side taker_price ts fuel (b1.set_ladder (opposite side) rest)
                taker_qty1 out1
            else
              match_against side taker_price ts fuel
                (b1.set_ladder (opposite side) ((k, lvl1) :: rest)) taker_qty1 out1
    else .ok (b, taker_qty, out)

/-- Model of `OrderBook::match_buy_against_sell`; the reference parameters `taker_qty` and
`out_trades` are returned. -/
def match_buy_against_sell (b : Book) (taker_qty : Qty) (taker_price : Price) (ts : TimeNs)
    (out_trades : List Trade) : Except Fault (Book × Qty × List Trade) :=
  match_against .BUY taker_price ts (b.sell_.length + 2) b taker_qty out_trades

/-- Model of `OrderBook::match_sell_against_buy`; the reference parameters `taker_qty` and
`out_trades` are returned. -/
def match_sell_against_buy (b : Book) (taker_qty : Qty) (taker_price : Price) (ts : TimeNs)
    (out_trades : List Trade) : Except Fault (Book × Qty × List Trade) :=
  match_against .SELL taker_price ts (b.buy_.length + 2) b taker_qty out_trades

/-! ## Public API -/

/-- The four statements that rest the remainder of a limit order: `create_order`,
`get_or_create_level`, `lvl.push_back(o)`, `index_insert(o)`. -/
def rest_order (b : Book) (id : OrderId) (side : Side) (px : Price) (qty : Qty) (ts : TimeNs) :
    Except Fault Book :=
  let (b1, o) := create_order b id side px qty ts
  let (b2, lvl) := get_or_create_level b1 side px
  match PriceLevel.push_back lvl b2.heap o with
  | .error e => .error e
  | .ok (lvl1, h) =>
    .ok (index_insert
      ({ b2 with heap := h }.set_ladder side (AL.modify (b2.ladder side) px (fun _ => lvl1))) id o)

/-- Model of `OrderBook::add_limit`. -/
def add_limit (b : Book) (id : OrderId) (side : Side) (px : Price) (qty : Qty) (ts : TimeNs) :
    Except Fault (Book × List Trade) :=
  if qty ≤ 0 then .ok (b, [])
  else
    match side with
    | .BUY =>
      match match_buy_against_sell b qty px ts [] with
      | .error e => .error e
      | .ok (b1, qty1, trades) =>
        if qty1 > 0 then
          match rest_order b1 id .BUY px qty1 ts with
          | .error e => .error e
          | .ok b2 => .ok (b2, trades)
        else .ok (b1, trades)
    | .SELL =>
      match match_sell_against_buy b qty px ts [] with
      | .error e => .error e
      | .ok (b1, qty1, trades) =>
        if qty1 > 0 then
          match rest_order b1 id .SELL px qty1 ts with
          | .error e => .error e
          | .ok b2 => .ok (b2, trades)
        else .ok (b1, trades)

/-- Model of `OrderBook::add_market`. -/
def add_market (b : Book) (_id : OrderId) (side : Side) (qty : Qty) (ts : TimeNs) :
    Except Fault (Book × List Trade) :=
  if qty ≤ 0 then .ok (b, [])
  else
    match side with
    | .BUY =>
      match match_buy_against_sell b qty PRICE_MAX ts [] with
      | .error e => .error e
      | .ok (b1, _, trades) => .ok (b1, trades)
    | .SELL =>
      match match_sell_against_buy b qty PRICE_MIN ts [] with
      | .error e => .error e
      | .ok (b1, _, trades) => .ok (b1, trades)

/-- Model of `OrderBook::cancel`. -/
def cancel (b : Book) (id : OrderId) : Except Fault (Book × Bool) :=
  match AL.find b.order_index_ id with
  | none => .ok (b, false)
  | some o =>
    match AL.find b.heap o with
    | none => .error .undefined_behaviour
    | some ord =>
      match ord.level with
      | none => .error .undefined_behaviour
      | some lp =>
        match b.level_at lp with
        | none => .error .undefined_behaviour
        | some lvl =>
          let px := lvl.price
          let s := ord.side
          match PriceLevel.remove lvl b.heap o with
          | .error e => .error e
          | .ok (lvl1, h) =>
            let b1 := { b with heap := h }.store_level lp lvl1
            let b2 := destroy_order (index_erase b1 ord.id) o
            if lvl1.empty then .ok (erase_level_if_empty b2 s px, true) else .ok (b2, true)

/-- Model of `OrderBook::replace`.  The last statement of the source function is `return trades;`
although no `trades` is in scope there, so the source gives the cancel and re-add path no
return value of its own; the parameter `trades` stands for whatever a build returns at that
point, and the statements about that path are made for every value of it.
`new_qty.value()` on an absent quantity throws `std::bad_optional_access`.  The subtractions
`old_qty - new_qty.value()` and `lvl->total_qty -= delta` are taken in `int64_t`. -/
def replace (trades : Bool) (b : Book) (id : OrderId) (new_px : Option Price)
    (new_qty : Option Qty) (ts : TimeNs) : Except Fault (Book × Bool) :=
  match AL.find b.order_index_ id with
  | none => .ok (b, false)
  | some o =>
    match AL.find b.heap o with
    | none => .error .undefined_behaviour
    | some ord =>
      let s := ord.side
      let old_px := ord.px
      let old_qty := ord.qty
      let price_change : Bool :=
        match new_px with
        | some p => decide (p ≠ old_px)
        | none => false
      let cancel_and_add : Except Fault (Book × Bool) :=
        match cancel b id with
        | .error e => .error e
        | .ok (b1, ok) =>
          if !ok then .ok (b1, false)
          else
            let px := if price_change then new_px.getD old_px else old_px
            let q := new_qty.getD old_qty
            if q ≤ 0 then .ok (b1, true)
            else
              match add_limit b1 id s px q ts with
              | .error e => .error e
              | .ok (b2, _) => .ok (b2, trades)
      if price_change then cancel_and_add
      else
        match new_qty with
        | none => .error .bad_optional_access
        | some nq =>
          if nq < old_qty then
            match ord.level with
            | none => .error .undefined_behaviour
            | some lp =>
              match b.level_at lp with
              | none => .error .undefined_behaviour
              | some lvl =>
                let delta := wrap64 (old_qty - nq)
                .ok ({ b with heap := AL.modify b.heap o (fun x => { x with qty := nq }) }.store_level
                      lp { lvl with total_qty := wrap64 (lvl.total_qty - delta) }, true)
          else cancel_and_add

/-! ## Reachable states and the structural invariant -/

/-- Book states reachable from the empty book by calls of the public API that return. -/
inductive Reachable : Book → Prop where
  | empty : Reachable Book.empty
  | add_limit {b b1 : Book} {trades : List Trade} (id : OrderId) (side : Side) (px : Price)
      (qty : Qty) (ts : TimeNs) :
      Reachable b → add_limit b id side px qty ts = .ok (b1, trades) → Reachable b1
  | add_market {b b1 : Book} {trades : List Trade} (id : OrderId) (side : Side) (qty : Qty)
      (ts : TimeNs) :
      Reachable b → add_market b id side qty ts = .ok (b1, trades) → Reachable b1
  | cancel {b b1 : Book} {r : Bool} (id : OrderId) :
      Reachable b → cancel b id = .ok (b1, r) → Reachable b1
  | replace {b b1 : Book} {r : Bool} (trades : Bool) (id : OrderId) (new_px : Option Price)
      (new_qty : Option Qty) (ts : TimeNs) :
      Reachable b → replace trades b id new_px new_qty ts = .ok (b1, r) → Reachable b1

/-- Structural invariant of the book: ladders in key order, every level filed under its own
price, level addresses distinct, and the pointers stored in levels, orders and index
refer to allocated orders that are consistently linked. -/
structure Inv (b : Book) : Prop where
  sorted : ∀ s, (b.ladder s).Pairwise (fun x y => key_before s x.1 y.1 = true)
  level_ok : ∀ s k L, (k, L) ∈ b.ladder s → L.price = k ∧ L.self < b.next_level
  self_inj : ∀ s k L s1 k1 L1, (k, L) ∈ b.ladder s → (k1, L1) ∈ b.ladder s1 →
    L.self = L1.self → s = s1 ∧ k = k1
  head_ok : ∀ s k L a, (k, L) ∈ b.ladder s → L.head = some a →
    ∃ o, AL.find b.heap a = some o ∧ o.level = some L.self ∧ o.prev = none
  tail_ok : ∀ s k L a, (k, L) ∈ b.ladder s → L.tail = some a →
    ∃ o, AL.find b.heap a = some o ∧ o.level = some L.self ∧ o.next = none
  next_ok : ∀ a o c, AL.find b.heap a = some o → o.next = some c →
    ∃ oc, AL.find b.heap c = some oc ∧ oc.prev = some a ∧ oc.level = o.level
  prev_ok : ∀ a o p, AL.find b.heap a = some o → o.prev = some p →
    ∃ op, AL.find b.heap p = some op ∧ op.next = some a ∧ op.level = o.level
  place_ok : ∀ a o lp, AL.find b.heap a = some o → o.level = some lp →
    lp < b.next_level ∧
      ∀ s k L, (k, L) ∈ b.ladder s → L.self = lp → o.side = s ∧ o.px = k
  heap_fresh : ∀ a o, AL.find b.heap a = some o → a < b.next_order
  index_ok : ∀ id a, AL.find b.order_index_ id = some a →
    ∃ o, AL.find b.heap a = some o ∧ o.id = id

/-- The order at address `a` after its neighbour `o` has been unlinked. -/
def relink (o : Order) (a : OrderPtr) (x : Order) : Order :=
  { x with
    next := if o.prev = some a then o.next else x.next
    prev := if o.next = some a then o.prev else x.prev }

/-- The level after the order `o` has been unlinked from it. -/
def unlinked (L : PriceLevel) (o : Order) : PriceLevel :=
  { L with
    head := if o.prev = none then o.next else L.head
    tail := if o.next = none then o.prev else L.tail
    total_qty := wrap64 (L.total_qty - o.qty) }

/-- Identity and pointer fields of an order: everything but its quantity and timestamp. -/
def Order.links (o : Order) :
    OrderId × Side × Price × Option OrderPtr × Option OrderPtr × Option LevelPtr :=
  (o.id, o.side, o.px, o.prev, o.next, o.level)

/-- Level `L1` is level `L` up to its total quantity. -/
def PriceLevel.same_queue (L1 L : PriceLevel) : Prop :=
  L1.self = L.self ∧ L1.price = L.price ∧ L1.head = L.head ∧ L1.tail = L.tail

/-- The book in which the ladder of side `s` is `(k, lvl) :: rest` and the heap and index
are `h` and `ix`: the state seen by the inner matching loop working on the first level. -/
def Book.with_front (b : Book) (s : Side) (k : Price) (rest : Ladder) (h : Heap) (ix : Index)
    (lvl : PriceLevel) : Book :=
  { b with heap := h, order_index_ := ix }.set_ladder s ((k, lvl) :: rest)

/-- What a run of the inner matching loop from heap `h`, index `ix`, level `lvl` and taker
quantity `tq` to `h1`, `ix1`, `lvl1` and `tq1`, emitting the trades `made`, establishes.
`qty_exact`: when the taker quantity is non-negative and stays at most `QTY_MAX` after
each trade, no subtraction from it wraps. -/
structure LevelRun (side : Side) (ts : TimeNs) (h : Heap) (ix : Index) (lvl : PriceLevel)
    (tq : Qty) (h1 : Heap) (ix1 : Index) (lvl1 : PriceLevel) (tq1 : Qty) (made : List Trade) :
    Prop where
  self_eq : lvl1.self = lvl.self
  price_eq : lvl1.price = lvl.price
  qty_exact : 0 ≤ tq → (∀ n, tq - (((made.take n).map Trade.qty).sum) ≤ QTY_MAX) →
    tq1 = tq - (made.map Trade.qty).sum ∧ 0 ≤ tq1
  stop : tq1 ≤ 0 ∨ lvl1.head = none
  trades : ∀ t ∈ made, t.price = lvl.price ∧ t.taker_side = side ∧ t.ts = ts ∧
    ∃ a o, AL.find h a = some o ∧ o.id = t.maker_id ∧ o.level = some lvl.self
  index_sub : ∀ i c, AL.find ix1 i = some c → AL.find ix i = some c
  heap_sub : ∀ a o1, AL.find h1 a = some o1 → ∃ o, AL.find h a = some o ∧
    o1.id = o.id ∧ o1.side = o.side ∧ o1.px = o.px ∧ o1.level = o.level
  heap_len : h1.length ≤ h.length

/-- Price `q` is no better than price `p` for a taker on `side`. -/
def no_better (side : Side) (p q : Price) : Prop :=
  match side with
  | .BUY => p ≤ q
  | .SELL => q ≤ p

/-- What a run of a matching routine for a taker on `side` from book `b` and taker
quantity `tq` to `b1` and `tq1`, emitting the trades `made`, establishes. -/
structure MatchRun (side : Side) (taker_price : Price) (ts : TimeNs) (b : Book) (tq : Qty)
    (b1 : Book) (tq1 : Qty) (made : List Trade) : Prop where
  own_ladder : b1.ladder side = b.ladder side
  next_order_eq : b1.next_order = b.next_order
  next_level_eq : b1.next_level = b.next_level
  qty_exact : 0 ≤ tq → (∀ n, tq - (((made.take n).map Trade.qty).sum) ≤ QTY_MAX) →
    tq1 = tq - (made.map Trade.qty).sum ∧ 0 ≤ tq1
  trades : ∀ t ∈ made, t.taker_side = side ∧ t.ts = ts ∧
    no_cross side t.price taker_price = false ∧
    ∃ a o L, AL.find b.heap a = some o ∧ o.id = t.maker_id ∧ o.level = some L.self ∧
      (t.price, L) ∈ b.ladder (opposite side)
  prices : made.Pairwise (fun t u => no_better side t.price u.price)
  index_sub : ∀ i c, AL.find b1.order_index_ i = some c → AL.find b.order_index_ i = some c
  heap_sub : ∀ a o1, AL.find b1.heap a = some o1 → ∃ o, AL.find b.heap a = some o ∧
    o1.id = o.id ∧ o1.side = o.side ∧ o1.px = o.px ∧ o1.level = o.level
  opp_sub : ∀ k L1, (k, L1) ∈ b1.ladder (opposite side) →
    ∃ L, (k, L) ∈ b.ladder (opposite side) ∧ L1.self = L.self
  stop : tq1 ≤ 0 ∨ b1.ladder (opposite side) = [] ∨
    ∃ k L rest, b1.ladder (opposite side) = (k, L) :: rest ∧
      no_cross side L.price taker_price = true

/-- What resting the order `(id, side, px, qty, ts)` on book `b` establishes of the
resulting book `b1`; the order is allocated at address `b.next_order`. -/
structure Rested (b : Book) (id : OrderId) (side : Side) (px : Price) (qty : Qty) (ts : TimeNs)
    (b1 : Book) : Prop where
  opp_ladder : b1.ladder (opposite side) = b.ladder (opposite side)
  depth_here : depth_at b1 side px = wrap64 (depth_at b side px + qty)
  level_else : ∀ p, p ≠ px → AL.find (b1.ladder side) p = AL.find (b.ladder side) p
  keys : ∀ k, (∃ L1, (k, L1) ∈ b1.ladder side) ↔ (k = px ∨ ∃ L, (k, L) ∈ b.ladder side)
  index_new : ∀ i, AL.find b1.order_index_ i =
    if i = id then
      (match AL.find b.order_index_ id with
        | some c => some c
        | none => some b.next_order)
    else AL.find b.order_index_ i
  order : ∃ ord lvl, AL.find b1.heap b.next_order = some ord ∧ ord.id = id ∧ ord.side = side ∧
    ord.px = px ∧ ord.qty = qty ∧ ord.ts = ts ∧ ord.next = none ∧ ord.level = some lvl.self ∧
    AL.find (b1.ladder side) px = some lvl ∧ lvl.tail = some b.next_order

/-! ## The validator (`OrderBook::validate`) -/

/-- The ordering assertion of `validate()` on a ladder fails: `px <= last` is violated on the
buy ladder, `px >= last` on the sell ladder. -/
def out_of_order : Side → Price → Price → Bool
  | .BUY, px, last => decide (px > last)
  | .SELL, px, last => decide (px < last)

/-- The inner loop of `validate()`, `for (o = lvl.head; o; o = o->next)`, on the level at
address `self` filed under `px` on `side`, started at pointer `o` with the running `sum`.
Returns the sum of the quantities walked, or `none` when one of the assertions
`o->level == &lvl`, `o->side == side`, `o->px == px`, `o->next->prev == o` fails. -/
def validate_queue (side : Side) (px : Price) (self : LevelPtr) :
    Nat → Heap → Option OrderPtr → Qty → Except Fault (Option Qty)
  | 0, _, _, _ => .error .out_of_fuel
  | _ + 1, _, none, sum => .ok (some sum)
  | fuel + 1, h, some o, sum =>
    match AL.find h o with
    | none => .error .undefined_behaviour
    | some ord =>
      if ord.level ≠ some self then .ok none
      else if ord.side ≠ side then .ok none
      else if ord.px ≠ px then .ok none
      else
        match ord.next with
        | none => validate_queue side px self fuel h none (wrap64 (sum + ord.qty))
        | some n =>
          match AL.find h n with
          | none => .error .undefined_behaviour
          | some nord =>
            if nord.prev ≠ some o then .ok none
            else validate_queue side px self fuel h (some n) (wrap64 (sum + ord.qty))

/-- One of the two ladder loops of `validate()`: the ordering assertion against `last`, the
walk of the queue and the assertion `sum == lvl.total_qty`.  The result is `false` as soon
as an assertion fails. -/
def validate_ladder (side : Side) (h : Heap) : Ladder → Price → Except Fault Bool
  | [], _ => .ok true
  | (px, lvl) :: rest, last =>
    if out_of_order side px last then .ok false
    else
      match validate_queue side px lvl.self (h.length + 1) h lvl.head 0 with
      | .error e => .error e
      | .ok none => .ok false
      | .ok (some sum) =>
        if sum ≠ lvl.total_qty then .ok false else validate_ladder side h rest px

/-- The index loop of `validate()`: `assert(o->level != nullptr)` for every entry. -/
def validate_index (h : Heap) : Index → Except Fault Bool
  | [] => .ok true
  | (_, o) :: rest =>
    match AL.find h o with
    | none => .error .undefined_behaviour
    | some ord => if ord.level = none then .ok false else validate_index h rest

/-- Model of `OrderBook::validate` (compiled only without `NDEBUG`): `true` when every
assertion holds, `false` when one fails. -/
def validate (b : Book) : Except Fault Bool :=
  match validate_ladder .BUY b.heap b.buy_ PRICE_MAX with
  | .error e => .error e
  | .ok false => .ok false
  | .ok true =>
    match validate_ladder .SELL b.heap b.sell_ PRICE_MIN with
    | .error e => .error e
    | .ok false => .ok false
    | .ok true => validate_index b.heap b.order_index_

/-! ## Book invariants named by the statements -/

/-- No bid is filed at or above an ask. -/
def NoCross (b : Book) : Prop :=
  ∀ kb Lb ka La, (kb, Lb) ∈ b.buy_ → (ka, La) ∈ b.sell_ → kb < ka

/-! ## Arithmetic of `int64_t` -/

theorem wrap64_eq (x : Int) (hlo : QTY_MIN ≤ x) (hhi : x ≤ QTY_MAX) : wrap64 x = x := by
  unfold QTY_MIN QTY_MAX Qty at *
  unfold wrap64
  omega

theorem wrap64_zero : wrap64 0 = 0 := by decide

theorem wrap64_sub_self (x : Int) : wrap64 (x - x) = 0 := by
  rw [sub_self, wrap64_zero]

theorem wrap64_range (x : Int) : QTY_MIN ≤ wrap64 x ∧ wrap64 x ≤ QTY_MAX := by
  unfold QTY_MIN QTY_MAX Qty
  unfold wrap64
  omega

/-! ## Association list lemmas -/

theorem AL.find_cons {κ ν : Type} [DecidableEq κ] (k1 : κ) (v : ν) (t : List (κ × ν)) (k : κ) :
    AL.find ((k1, v) :: t) k = if k1 = k then some v else AL.find t k := rfl

theorem AL.modify_cons {κ ν : Type} [DecidableEq κ] (k2 : κ) (v : ν) (t : List (κ × ν)) (k : κ)
    (f : ν → ν) :
    AL.modify ((k2, v) :: t) k f = (k2, if k2 = k then f v else v) :: AL.modify t k f := by
  by_cases h : k2 = k <;> simp [AL.modify, h]

theorem AL.find_modify {κ ν : Type} [DecidableEq κ] (l : List (κ × ν)) (k : κ) (f : ν → ν)
    (k1 : κ) : AL.find (AL.modify l k f) k1 = if k1 = k then (AL.find l k).map f else AL.find l k1 := by
  induction l with
  | nil => simp [AL.modify, AL.find]
  | cons e t ih =>
    obtain ⟨k2, v⟩ := e
    rw [AL.modify_cons, AL.find_cons, AL.find_cons, AL.find_cons, ih]
    by_cases h2 : k2 = k
    · subst h2
      by_cases h1 : k1 = k2
      · subst h1; simp
      · have : ¬ k2 = k1 := fun h => h1 h.symm
        simp [this, h1]
    · by_cases h1 : k1 = k
      · subst h1
        simp [h2]
      · simp [h2, h1]

theorem AL.find_erase {κ ν : Type} [DecidableEq κ] (l : List (κ × ν)) (k k1 : κ) :
    AL.find (AL.erase l k) k1 = if k1 = k then none else AL.find l k1 := by
  induction l with
  | nil => simp [AL.erase, AL.find]
  | cons e t ih =>
    obtain ⟨k2, v⟩ := e
    simp only [AL.erase] at ih ⊢
    by_cases h2 : k2 = k
    · subst h2
      simp only [List.filter, ne_eq, not_true_eq_false, decide_False]
      rw [ih]
      by_cases h1 : k1 = k2
      · simp [h1]
      · have : ¬ k2 = k1 := fun h => h1 h.symm
        simp [AL.find, this, h1]
    · simp only [List.filter, ne_eq, h2, not_false_eq_true, decide_True, AL.find]
      rw [ih]
      by_cases h1 : k1 = k
      · subst h1; simp [h2]
      · simp [h1]

theorem AL.length_modify {κ ν : Type} [DecidableEq κ] (l : List (κ × ν)) (k : κ) (f : ν → ν) :
    (AL.modify l k f).length = l.length := by
  simp [AL.modify]

theorem AL.length_erase_le {κ ν : Type} [DecidableEq κ] (l : List (κ × ν)) (k : κ) :
    (AL.erase l k).length ≤ l.length := by
  simp only [AL.erase]
  exact List.length_filter_le _ _

theorem AL.length_erase_lt {κ ν : Type} [DecidableEq κ] (l : List (κ × ν)) (k : κ) (v : ν)
    (h : AL.find l k = some v) : (AL.erase l k).length < l.length := by
  induction l with
  | nil => simp [AL.find] at h
  | cons e t ih =>
    obtain ⟨k2, v2⟩ := e
    by_cases h2 : k2 = k
    · subst h2
      have := AL.length_erase_le t k2
      simp only [AL.erase, List.filter, ne_eq, not_true_eq_false, decide_False,
        List.length_cons] at this ⊢
      omega
    · simp only [AL.find, h2, if_false] at h
      have := ih h
      simp only [AL.erase, List.filter, ne_eq, h2, not_false_eq_true, decide_True,
        List.length_cons] at this ⊢
      omega

theorem AL.find_mem {κ ν : Type} [DecidableEq κ] (l : List (κ × ν)) (k : κ) (v : ν)
    (h : AL.find l k = some v) : (k, v) ∈ l := by
  induction l with
  | nil => simp [AL.find] at h
  | cons e t ih =>
    obtain ⟨k2, v2⟩ := e
    by_cases h2 : k2 = k
    · subst h2
      simp [AL.find] at h
      simp [h]
    · simp only [AL.find, h2, if_false] at h
      exact List.mem_cons_of_mem _ (ih h)

theorem AL.erase_sublist {κ ν : Type} [DecidableEq κ] (l : List (κ × ν)) (k : κ) :
    (AL.erase l k).Sublist l := by
  simp only [AL.erase]
  exact List.filter_sublist l

/-! ## Ladders -/

theorem key_before_irrefl (s : Side) (k : Price) : key_before s k k = false := by
  cases s <;> simp [key_before]

theorem key_before_trans (s : Side) (a b c : Price) (h1 : key_before s a b = true)
    (h2 : key_before s b c = true) : key_before s a c = true := by
  cases s <;> simp only [key_before, decide_eq_true_eq, gt_iff_lt] at * <;> exact lt_trans ‹_› ‹_›

theorem key_before_total (s : Side) (a b : Price) (h1 : key_before s a b = false) (h2 : a ≠ b) :
    key_before s b a = true := by
  cases s <;> simp only [key_before, decide_eq_true_eq, decide_eq_false_iff_not, gt_iff_lt,
    not_lt] at *
  · exact lt_of_le_of_ne h1 h2
  · exact lt_of_le_of_ne h1 (Ne.symm h2)

theorem Ladder.mem_unique (s : Side) (l : Ladder)
    (hs : l.Pairwise (fun x y => key_before s x.1 y.1 = true)) (k : Price) (L L1 : PriceLevel)
    (h : (k, L) ∈ l) (h1 : (k, L1) ∈ l) : L = L1 := by
  induction l with
  | nil => simp at h
  | cons e t ih =>
    rw [List.pairwise_cons] at hs
    rcases List.mem_cons.1 h with h | h
    · rcases List.mem_cons.1 h1 with h1 | h1
      · rw [← h1] at h
        exact (Prod.mk.inj h).2
      · have := hs.1 _ h1
        rw [← h] at this
        simp [key_before_irrefl] at this
    · rcases List.mem_cons.1 h1 with h1 | h1
      · have := hs.1 _ h
        rw [← h1] at this
        simp [key_before_irrefl] at this
      · exact ih hs.2 h h1

theorem AL.find_none_not_mem {κ ν : Type} [DecidableEq κ] (l : List (κ × ν)) (k : κ)
    (h : AL.find l k = none) (v : ν) : (k, v) ∉ l := by
  induction l with
  | nil => simp
  | cons e t ih =>
    obtain ⟨k2, v2⟩ := e
    rw [AL.find_cons] at h
    by_cases h2 : k2 = k
    · simp [h2] at h
    · simp only [h2, if_false] at h
      intro hm
      rcases List.mem_cons.1 hm with hm | hm
      · exact h2 (Prod.mk.inj hm).1.symm
      · exact ih h hm

theorem Ladder.find_of_mem (s : Side) (l : Ladder)
    (hs : l.Pairwise (fun x y => key_before s x.1 y.1 = true)) (k : Price) (L : PriceLevel)
    (h : (k, L) ∈ l) : AL.find l k = some L := by
  cases hf : AL.find l k with
  | none => exact absurd h (AL.find_none_not_mem l k hf L)
  | some L1 => rw [Ladder.mem_unique s l hs k L L1 h (AL.find_mem l k L1 hf)]

theorem Ladder.mem_insert (s : Side) (l : Ladder) (px : Price) (lvl : PriceLevel)
    (e : Price × PriceLevel) : e ∈ Ladder.insert s l px lvl ↔ e = (px, lvl) ∨ e ∈ l := by
  induction l with
  | nil => simp [Ladder.insert]
  | cons e1 t ih =>
    obtain ⟨k, v⟩ := e1
    simp only [Ladder.insert]
    split
    · simp
    · simp only [List.mem_cons, ih]
      tauto

theorem Ladder.find_insert (s : Side) (l : Ladder) (px : Price) (lvl : PriceLevel)
    (hn : AL.find l px = none) (p : Price) :
    AL.find (Ladder.insert s l px lvl) p = if p = px then some lvl else AL.find l p := by
  induction l with
  | nil =>
    by_cases hp : p = px
    · simp [Ladder.insert, AL.find, hp]
    · have : ¬ px = p := fun h => hp h.symm
      simp [Ladder.insert, AL.find, hp, this]
  | cons e1 t ih =>
    obtain ⟨k, v⟩ := e1
    rw [AL.find_cons] at hn
    have hk : ¬ k = px := by
      intro hk
      simp [hk] at hn
    simp only [hk, if_false] at hn
    simp only [Ladder.insert]
    split
    · rw [AL.find_cons, AL.find_cons]
      by_cases hp : p = px
      · subst hp; simp
      · have : ¬ px = p := fun h => hp h.symm
        simp [hp, this]
    · rw [AL.find_cons, AL.find_cons, ih hn]
      by_cases hp : p = px
      · subst hp; simp [hk]
      · simp [hp]

theorem Ladder.insert_sorted (s : Side) (l : Ladder) (px : Price) (lvl : PriceLevel)
    (hs : l.Pairwise (fun x y => key_before s x.1 y.1 = true)) (hn : AL.find l px = none) :
    (Ladder.insert s l px lvl).Pairwise (fun x y => key_before s x.1 y.1 = true) := by
  induction l with
  | nil => simp [Ladder.insert]
  | cons e1 t ih =>
    obtain ⟨k, v⟩ := e1
    rw [AL.find_cons] at hn
    have hk : ¬ k = px := by
      intro hk
      simp [hk] at hn
    simp only [hk, if_false] at hn
    rw [List.pairwise_cons] at hs
    simp only [Ladder.insert]
    split
    · rename_i hb
      rw [List.pairwise_cons]
      refine ⟨?_, List.pairwise_cons.2 hs⟩
      intro e he
      rcases List.mem_cons.1 he with rfl | he
      · exact hb
      · exact key_before_trans s _ _ _ hb (hs.1 e he)
    · rename_i hb
      rw [List.pairwise_cons]
      refine ⟨?_, ih hs.2 hn⟩
      intro e he
      rcases (Ladder.mem_insert s t px lvl e).1 he with rfl | he
      · exact key_before_total s _ _ (by simpa using hb) (fun h => hk h.symm)
      · exact hs.1 e he

/-! ## The invariant is kept by the elementary steps -/

theorem Order.links_eq {o1 o : Order} (h : o1.links = o.links) :
    o1.id = o.id ∧ o1.side = o.side ∧ o1.px = o.px ∧ o1.prev = o.prev ∧ o1.next = o.next ∧
      o1.level = o.level := by
  simpa [Order.links] using h

theorem find_links_fwd {h h1 : Heap}
    (hh : ∀ x, (AL.find h1 x).map Order.links = (AL.find h x).map Order.links)
    {x : OrderPtr} {o : Order} (hx : AL.find h x = some o) :
    ∃ o1, AL.find h1 x = some o1 ∧ o1.links = o.links := by
  have := hh x
  rw [hx] at this
  cases h1x : AL.find h1 x with
  | none => simp [h1x] at this
  | some o1 =>
    refine ⟨o1, rfl, ?_⟩
    simpa [h1x] using this

theorem find_links_bwd {h h1 : Heap}
    (hh : ∀ x, (AL.find h1 x).map Order.links = (AL.find h x).map Order.links)
    {x : OrderPtr} {o1 : Order} (hx : AL.find h1 x = some o1) :
    ∃ o, AL.find h x = some o ∧ o1.links = o.links := by
  have := hh x
  rw [hx] at this
  cases h1x : AL.find h x with
  | none => simp [h1x] at this
  | some o =>
    refine ⟨o, rfl, ?_⟩
    simpa [h1x] using this

/-- Steps that change no link: quantities and totals may change, levels and index entries
may disappear. -/
theorem Inv.weaken {b b1 : Book} (hI : Inv b)
    (hsort : ∀ s, (b1.ladder s).Pairwise (fun x y => key_before s x.1 y.1 = true))
    (hlad : ∀ s k L1, (k, L1) ∈ b1.ladder s → ∃ L, (k, L) ∈ b.ladder s ∧ L1.same_queue L)
    (hheap : ∀ x, (AL.find b1.heap x).map Order.links = (AL.find b.heap x).map Order.links)
    (hix : ∀ i c, AL.find b1.order_index_ i = some c → AL.find b.order_index_ i = some c)
    (hno : b.next_order ≤ b1.next_order) (hnl : b.next_level ≤ b1.next_level) : Inv b1 := by
  refine ⟨hsort, ?_, ?_, ?_, ?_, ?_, ?_, ?_, ?_, ?_⟩
  · intro s k L1 h1
    obtain ⟨L, hL, hq⟩ := hlad s k L1 h1
    have := hI.level_ok s k L hL
    exact ⟨hq.2.1.trans this.1, by rw [hq.1]; exact lt_of_lt_of_le this.2 hnl⟩
  · intro s k L1 s1 k1 L2 h1 h2 he
    obtain ⟨L, hL, hq⟩ := hlad s k L1 h1
    obtain ⟨L', hL', hq'⟩ := hlad s1 k1 L2 h2
    exact hI.self_inj s k L s1 k1 L' hL hL' (by rw [← hq.1, ← hq'.1, he])
  · intro s k L1 a h1 hh
    obtain ⟨L, hL, hq⟩ := hlad s k L1 h1
    obtain ⟨o, ho, hlv, hp⟩ := hI.head_ok s k L a hL (by rw [← hq.2.2.1, hh])
    obtain ⟨o1, ho1, hl⟩ := find_links_fwd hheap ho
    have hl := Order.links_eq hl
    exact ⟨o1, ho1, by rw [hl.2.2.2.2.2, hlv, hq.1], by rw [hl.2.2.2.1, hp]⟩
  · intro s k L1 a h1 hh
    obtain ⟨L, hL, hq⟩ := hlad s k L1 h1
    obtain ⟨o, ho, hlv, hp⟩ := hI.tail_ok s k L a hL (by rw [← hq.2.2.2, hh])
    obtain ⟨o1, ho1, hl⟩ := find_links_fwd hheap ho
    have hl := Order.links_eq hl
    exact ⟨o1, ho1, by rw [hl.2.2.2.2.2, hlv, hq.1], by rw [hl.2.2.2.2.1, hp]⟩
  · intro a o1 c ha hn
    obtain ⟨o, ho, hl⟩ := find_links_bwd hheap ha
    have hl := Order.links_eq hl
    obtain ⟨oc, hoc, hp, hlv⟩ := hI.next_ok a o c ho (by rw [← hl.2.2.2.2.1, hn])
    obtain ⟨oc1, hoc1, hlc⟩ := find_links_fwd hheap hoc
    have hlc := Order.links_eq hlc
    exact ⟨oc1, hoc1, by rw [hlc.2.2.2.1, hp], by rw [hlc.2.2.2.2.2, hlv, hl.2.2.2.2.2]⟩
  · intro a o1 c ha hn
    obtain ⟨o, ho, hl⟩ := find_links_bwd hheap ha
    have hl := Order.links_eq hl
    obtain ⟨oc, hoc, hp, hlv⟩ := hI.prev_ok a o c ho (by rw [← hl.2.2.2.1, hn])
    obtain ⟨oc1, hoc1, hlc⟩ := find_links_fwd hheap hoc
    have hlc := Order.links_eq hlc
    exact ⟨oc1, hoc1, by rw [hlc.2.2.2.2.1, hp], by rw [hlc.2.2.2.2.2, hlv, hl.2.2.2.2.2]⟩
  · intro a o1 lp ha hlv
    obtain ⟨o, ho, hl⟩ := find_links_bwd hheap ha
    have hl := Order.links_eq hl
    have := hI.place_ok a o lp ho (by rw [← hl.2.2.2.2.2, hlv])
    refine ⟨lt_of_lt_of_le this.1 hnl, ?_⟩
    intro s k L1 h1 hs
    obtain ⟨L, hL, hq⟩ := hlad s k L1 h1
    have := this.2 s k L hL (by rw [← hq.1, hs])
    exact ⟨by rw [hl.2.1, this.1], by rw [hl.2.2.1, this.2]⟩
  · intro a o1 ha
    obtain ⟨o, ho, _⟩ := find_links_bwd hheap ha
    exact lt_of_lt_of_le (hI.heap_fresh a o ho) hno
  · intro i c hc
    obtain ⟨o, ho, hid⟩ := hI.index_ok i c (hix i c hc)
    obtain ⟨o1, ho1, hl⟩ := find_links_fwd hheap ho
    have hl := Order.links_eq hl
    exact ⟨o1, ho1, by rw [hl.1, hid]⟩

/-- Unlinking an allocated order from the level its back pointer designates, erasing the
index entry of its id and freeing it. -/
theorem Inv.unlink {b b1 : Book} (hI : Inv b) {a : OrderPtr} {o : Order} {s : Side} {k : Price}
    {L : PriceLevel} (ha : AL.find b.heap a = some o) (hlv : o.level = some L.self)
    (hL : (k, L) ∈ b.ladder s)
    (hsort : ∀ s, (b1.ladder s).Pairwise (fun x y => key_before s x.1 y.1 = true))
    (hlad : ∀ s1 k1 L1, (k1, L1) ∈ b1.ladder s1 → ∃ L0, (k1, L0) ∈ b.ladder s1 ∧
      L1.same_queue (if L0.self = L.self then unlinked L0 o else L0))
    (hheap : ∀ x, (AL.find b1.heap x).map Order.links =
      if x = a then none else (AL.find b.heap x).map (fun ox => (relink o x ox).links))
    (hix : ∀ i c, AL.find b1.order_index_ i = some c →
      i ≠ o.id ∧ AL.find b.order_index_ i = some c)
    (hno : b.next_order ≤ b1.next_order) (hnl : b.next_level ≤ b1.next_level) : Inv b1 := by
  have hfwd : ∀ x ox, x ≠ a → AL.find b.heap x = some ox →
      ∃ o1, AL.find b1.heap x = some o1 ∧ o1.links = (relink o x ox).links := by
    intro x ox hxa hx
    have := hheap x
    rw [if_neg hxa, hx] at this
    cases h1x : AL.find b1.heap x with
    | none => simp [h1x] at this
    | some o1 => exact ⟨o1, rfl, by simpa [h1x] using this⟩
  have hbwd : ∀ x o1, AL.find b1.heap x = some o1 →
      x ≠ a ∧ ∃ ox, AL.find b.heap x = some ox ∧ o1.links = (relink o x ox).links := by
    intro x o1 hx
    have := hheap x
    rw [hx] at this
    by_cases hxa : x = a
    · simp [hxa] at this
    · refine ⟨hxa, ?_⟩
      rw [if_neg hxa] at this
      cases h1x : AL.find b.heap x with
      | none => simp [h1x] at this
      | some ox => exact ⟨ox, rfl, by simpa [h1x] using this⟩
  have hlevel : ∀ s1 k1 L0, (k1, L0) ∈ b.ladder s1 → L0.self = L.self → L0 = L := by
    intro s1 k1 L0 h0 hs
    obtain ⟨rfl, rfl⟩ := hI.self_inj s1 k1 L0 s k L h0 hL hs
    exact Ladder.mem_unique s1 _ (hI.sorted s1) k1 L0 L h0 hL
  refine ⟨hsort, ?_, ?_, ?_, ?_, ?_, ?_, ?_, ?_, ?_⟩
  · intro s1 k1 L1 h1
    obtain ⟨L0, hL0, hq⟩ := hlad s1 k1 L1 h1
    have := hI.level_ok s1 k1 L0 hL0
    split at hq
    · exact ⟨hq.2.1.trans this.1, by rw [hq.1]; exact lt_of_lt_of_le this.2 hnl⟩
    · exact ⟨hq.2.1.trans this.1, by rw [hq.1]; exact lt_of_lt_of_le this.2 hnl⟩
  · intro s1 k1 L1 s2 k2 L2 h1 h2 he
    obtain ⟨L0, hL0, hq⟩ := hlad s1 k1 L1 h1
    obtain ⟨L0', hL0', hq'⟩ := hlad s2 k2 L2 h2
    have e1 : L1.self = L0.self := by
      split at hq
      · exact hq.1
      · exact hq.1
    have e2 : L2.self = L0'.self := by
      split at hq'
      · exact hq'.1
      · exact hq'.1
    exact hI.self_inj s1 k1 L0 s2 k2 L0' hL0 hL0' (by rw [← e1, ← e2, he])
  · intro s1 k1 L1 c h1 hh
    obtain ⟨L0, hL0, hq⟩ := hlad s1 k1 L1 h1
    by_cases hself : L0.self = L.self
    · rw [if_pos hself] at hq
      have := hlevel s1 k1 L0 hL0 hself
      subst this
      have hhead : (if o.prev = none then o.next else L0.head) = some c := by
        rw [← hh, hq.2.2.1]; rfl
      by_cases hp : o.prev = none
      · rw [if_pos hp] at hhead
        obtain ⟨oc, hoc, hpc, hlc⟩ := hI.next_ok a o c ha hhead
        have hca : c ≠ a := by
          rintro rfl
          rw [ha] at hoc
          cases hoc
          rw [hp] at hpc
          cases hpc
        obtain ⟨o1, ho1, hl⟩ := hfwd c oc hca hoc
        have hl := Order.links_eq hl
        refine ⟨o1, ho1, ?_, ?_⟩
        · rw [hl.2.2.2.2.2, hq.1]
          simp only [relink, unlinked]
          rw [hlc, hlv]
        · rw [hl.2.2.2.1]
          simp [relink, hhead, hp]
      · rw [if_neg hp] at hhead
        obtain ⟨oc, hoc, hlc, hpc⟩ := hI.head_ok s1 k1 L0 c hL0 hhead
        have hca : c ≠ a := by
          rintro rfl
          rw [ha] at hoc
          cases hoc
          exact hp hpc
        obtain ⟨o1, ho1, hl⟩ := hfwd c oc hca hoc
        have hl := Order.links_eq hl
        have hnc : o.next ≠ some c := by
          intro hn
          obtain ⟨oc', hoc', hpc', _⟩ := hI.next_ok a o c ha hn
          rw [hoc] at hoc'
          cases hoc'
          rw [hpc] at hpc'
          cases hpc'
        refine ⟨o1, ho1, ?_, ?_⟩
        · rw [hl.2.2.2.2.2, hq.1]
          simp only [relink, unlinked]
          rw [hlc]
        · rw [hl.2.2.2.1]
          simp [relink, hnc, hpc]
    · rw [if_neg hself] at hq
      obtain ⟨oc, hoc, hlc, hpc⟩ := hI.head_ok s1 k1 L0 c hL0 (by rw [← hq.2.2.1, hh])
      have hca : c ≠ a := by
        rintro rfl
        rw [ha] at hoc
        cases hoc
        rw [hlv] at hlc
        exact hself (Option.some.inj hlc).symm
      obtain ⟨o1, ho1, hl⟩ := hfwd c oc hca hoc
      have hl := Order.links_eq hl
      have hnc : o.next ≠ some c := by
        intro hn
        obtain ⟨oc', hoc', hpc', _⟩ := hI.next_ok a o c ha hn
        rw [hoc] at hoc'
        cases hoc'
        rw [hpc] at hpc'
        cases hpc'
      refine ⟨o1, ho1, ?_, ?_⟩
      · rw [hl.2.2.2.2.2, hq.1]
        simp only [relink]
        rw [hlc]
      · rw [hl.2.2.2.1]
        simp [relink, hnc, hpc]
  · intro s1 k1 L1 c h1 hh
    obtain ⟨L0, hL0, hq⟩ := hlad s1 k1 L1 h1
    by_cases hself : L0.self = L.self
    · rw [if_pos hself] at hq
      have := hlevel s1 k1 L0 hL0 hself
      subst this
      have htail : (if o.next = none then o.prev else L0.tail) = some c := by
        rw [← hh, hq.2.2.2]; rfl
      by_cases hp : o.next = none
      · rw [if_pos hp] at htail
        obtain ⟨oc, hoc, hpc, hlc⟩ := hI.prev_ok a o c ha htail
        have hca : c ≠ a := by
          rintro rfl
          rw [ha] at hoc
          cases hoc
          rw [hp] at hpc
          cases hpc
        obtain ⟨o1, ho1, hl⟩ := hfwd c oc hca hoc
        have hl := Order.links_eq hl
        refine ⟨o1, ho1, ?_, ?_⟩
        · rw [hl.2.2.2.2.2, hq.1]
          simp only [relink, unlinked]
          rw [hlc, hlv]
        · rw [hl.2.2.2.2.1]
          simp [relink, htail, hp]
      · rw [if_neg hp] at htail
        obtain ⟨oc, hoc, hlc, hpc⟩ := hI.tail_ok s1 k1 L0 c hL0 htail
        have hca : c ≠ a := by
          rintro rfl
          rw [ha] at hoc
          cases hoc
          exact hp hpc
        obtain ⟨o1, ho1, hl⟩ := hfwd c oc hca hoc
        have hl := Order.links_eq hl
        have hnc : o.prev ≠ some c := by
          intro hn
          obtain ⟨oc', hoc', hpc', _⟩ := hI.prev_ok a o c ha hn
          rw [hoc] at hoc'
          cases hoc'
          rw [hpc] at hpc'
          cases hpc'
        refine ⟨o1, ho1, ?_, ?_⟩
        · rw [hl.2.2.2.2.2, hq.1]
          simp only [relink, unlinked]
          rw [hlc]
        · rw [hl.2.2.2.2.1]
          simp [relink, hnc, hpc]
    · rw [if_neg hself] at hq
      obtain ⟨oc, hoc, hlc, hpc⟩ := hI.tail_ok s1 k1 L0 c hL0 (by rw [← hq.2.2.2, hh])
      have hca : c ≠ a := by
        rintro rfl
        rw [ha] at hoc
        cases hoc
        rw [hlv] at hlc
        exact hself (Option.some.inj hlc).symm
      obtain ⟨o1, ho1, hl⟩ := hfwd c oc hca hoc
      have hl := Order.links_eq hl
      have hnc : o.prev ≠ some c := by
        intro hn
        obtain ⟨oc', hoc', hpc', _⟩ := hI.prev_ok a o c ha hn
        rw [hoc] at hoc'
        cases hoc'
        rw [hpc] at hpc'
        cases hpc'
      refine ⟨o1, ho1, ?_, ?_⟩
      · rw [hl.2.2.2.2.2, hq.1]
        simp only [relink]
        rw [hlc]
      · rw [hl.2.2.2.2.1]
        simp [relink, hnc, hpc]
  · intro x o1 c hx hn
    obtain ⟨hxa, ox, hox, hl⟩ := hbwd x o1 hx
    have hl := Order.links_eq hl
    rw [hl.2.2.2.2.1] at hn
    simp only [relink] at hn
    by_cases hpx : o.prev = some x
    · rw [if_pos hpx] at hn
      obtain ⟨oc, hoc, hpc, hlc⟩ := hI.next_ok a o c ha hn
      obtain ⟨ox', hox', _, hlx⟩ := hI.prev_ok a o x ha hpx
      rw [hox] at hox'
      cases hox'
      have hca : c ≠ a := by
        rintro rfl
        rw [ha] at hoc
        cases hoc
        rw [hpx] at hpc
        exact hxa (Option.some.inj hpc)
      obtain ⟨oc1, hoc1, hlc1⟩ := hfwd c oc hca hoc
      have hlc1 := Order.links_eq hlc1
      refine ⟨oc1, hoc1, ?_, ?_⟩
      · rw [hlc1.2.2.2.1]
        simp [relink, hn, hpx]
      · rw [hlc1.2.2.2.2.2, hl.2.2.2.2.2]
        simp only [relink]
        rw [hlc, hlx]
    · rw [if_neg hpx] at hn
      obtain ⟨oc, hoc, hpc, hlc⟩ := hI.next_ok x ox c hox hn
      have hca : c ≠ a := by
        rintro rfl
        rw [ha] at hoc
        cases hoc
        exact hpx hpc
      obtain ⟨oc1, hoc1, hlc1⟩ := hfwd c oc hca hoc
      have hlc1 := Order.links_eq hlc1
      have hnc : o.next ≠ some c := by
        intro hn'
        obtain ⟨oc', hoc', hpc', _⟩ := hI.next_ok a o c ha hn'
        rw [hoc] at hoc'
        cases hoc'
        rw [hpc] at hpc'
        exact hxa (Option.some.inj hpc')
      refine ⟨oc1, hoc1, ?_, ?_⟩
      · rw [hlc1.2.2.2.1]
        simp [relink, hnc, hpc]
      · rw [hlc1.2.2.2.2.2, hl.2.2.2.2.2]
        simp only [relink]
        rw [hlc]
  · intro x o1 c hx hn
    obtain ⟨hxa, ox, hox, hl⟩ := hbwd x o1 hx
    have hl := Order.links_eq hl
    rw [hl.2.2.2.1] at hn
    simp only [relink] at hn
    by_cases hpx : o.next = some x
    · rw [if_pos hpx] at hn
      obtain ⟨oc, hoc, hpc, hlc⟩ := hI.prev_ok a o c ha hn
      obtain ⟨ox', hox', _, hlx⟩ := hI.next_ok a o x ha hpx
      rw [hox] at hox'
      cases hox'
      have hca : c ≠ a := by
        rintro rfl
        rw [ha] at hoc
        cases hoc
        rw [hpx] at hpc
        exact hxa (Option.some.inj hpc)
      obtain ⟨oc1, hoc1, hlc1⟩ := hfwd c oc hca hoc
      have hlc1 := Order.links_eq hlc1
      refine ⟨oc1, hoc1, ?_, ?_⟩
      · rw [hlc1.2.2.2.2.1]
        simp [relink, hn, hpx]
      · rw [hlc1.2.2.2.2.2, hl.2.2.2.2.2]
        simp only [relink]
        rw [hlc, hlx]
    · rw [if_neg hpx] at hn
      obtain ⟨oc, hoc, hpc, hlc⟩ := hI.prev_ok x ox c hox hn
      have hca : c ≠ a := by
        rintro rfl
        rw [ha] at hoc
        cases hoc
        exact hpx hpc
      obtain ⟨oc1, hoc1, hlc1⟩ := hfwd c oc hca hoc
      have hlc1 := Order.links_eq hlc1
      have hnc : o.prev ≠ some c := by
        intro hn'
        obtain ⟨oc', hoc', hpc', _⟩ := hI.prev_ok a o c ha hn'
        rw [hoc] at hoc'
        cases hoc'
        rw [hpc] at hpc'
        exact hxa (Option.some.inj hpc')
      refine ⟨oc1, hoc1, ?_, ?_⟩
      · rw [hlc1.2.2.2.2.1]
        simp [relink, hnc, hpc]
      · rw [hlc1.2.2.2.2.2, hl.2.2.2.2.2]
        simp only [relink]
        rw [hlc]
  · intro x o1 lp hx hlp
    obtain ⟨hxa, ox, hox, hl⟩ := hbwd x o1 hx
    have hl := Order.links_eq hl
    have hlp' : ox.level = some lp := by
      rw [← hlp, hl.2.2.2.2.2]; rfl
    have := hI.place_ok x ox lp hox hlp'
    refine ⟨lt_of_lt_of_le this.1 hnl, ?_⟩
    intro s1 k1 L1 h1 hs
    obtain ⟨L0, hL0, hq⟩ := hlad s1 k1 L1 h1
    have e1 : L1.self = L0.self := by
      split at hq
      · exact hq.1
      · exact hq.1
    have := this.2 s1 k1 L0 hL0 (by rw [← e1, hs])
    exact ⟨by rw [hl.2.1]; exact this.1, by rw [hl.2.2.1]; exact this.2⟩
  · intro x o1 hx
    obtain ⟨_, ox, hox, _⟩ := hbwd x o1 hx
    exact lt_of_lt_of_le (hI.heap_fresh x ox hox) hno
  · intro i c hc
    obtain ⟨hi, hc'⟩ := hix i c hc
    obtain ⟨oc, hoc, hid⟩ := hI.index_ok i c hc'
    have hca : c ≠ a := by
      rintro rfl
      rw [ha] at hoc
      cases hoc
      exact hi hid.symm
    obtain ⟨o1, ho1, hl⟩ := hfwd c oc hca hoc
    have hl := Order.links_eq hl
    exact ⟨o1, ho1, by rw [hl.1]; exact hid⟩

/-! ## `PriceLevel::remove` and `PriceLevel::push_back` -/

theorem PriceLevel.remove_spec (L : PriceLevel) (h : Heap) (a : OrderPtr) (o : Order)
    (ha : AL.find h a = some o)
    (hp : ∀ p, o.prev = some p → ∃ op, AL.find h p = some op)
    (hn : ∀ n, o.next = some n → ∃ nx, AL.find h n = some nx) :
    ∃ h1, PriceLevel.remove L h a = .ok (unlinked L o, h1) ∧
      ∀ x, x ≠ a → AL.find h1 x = (AL.find h x).map (relink o x) := by
  unfold PriceLevel.remove
  simp only [ha]
  rcases hop : o.prev with _ | p <;> rcases hon : o.next with _ | n
  · have hu : unlinked L o =
        { L with head := none, tail := none, total_qty := wrap64 (L.total_qty - o.qty) } := by
      simp [unlinked, hop, hon]
    rw [hu]
    refine ⟨_, rfl, ?_⟩
    intro x hx
    rw [AL.find_modify, if_neg hx]
    cases AL.find h x <;> simp [relink, hop, hon]
  · obtain ⟨nx, hon'⟩ := hn n hon
    have hu : unlinked L o = { L with head := some n, total_qty := wrap64 (L.total_qty - o.qty) } := by
      simp [unlinked, hop, hon]
    rw [hu]
    simp only [hon']
    refine ⟨_, rfl, ?_⟩
    intro x hx
    rw [AL.find_modify, if_neg hx, AL.find_modify]
    by_cases hxn : x = n
    · subst hxn
      rw [if_pos rfl, hon']
      simp [relink, hop, hon]
    · have : ¬ n = x := fun h => hxn h.symm
      rw [if_neg hxn]
      cases AL.find h x <;> simp [relink, hop, hon, this]
  · obtain ⟨op, hop'⟩ := hp p hop
    have hu : unlinked L o = { L with tail := some p, total_qty := wrap64 (L.total_qty - o.qty) } := by
      simp [unlinked, hop, hon]
    rw [hu]
    simp only [hop']
    refine ⟨_, rfl, ?_⟩
    intro x hx
    rw [AL.find_modify, if_neg hx, AL.find_modify]
    by_cases hxp : x = p
    · subst hxp
      rw [if_pos rfl, hop']
      simp [relink, hop, hon]
    · have : ¬ p = x := fun h => hxp h.symm
      rw [if_neg hxp]
      cases AL.find h x <;> simp [relink, hop, hon, this]
  · obtain ⟨op, hop'⟩ := hp p hop
    obtain ⟨nx, hon'⟩ := hn n hon
    have hn1 : ∃ nx1, AL.find (AL.modify h p (fun x => { x with next := some n })) n = some nx1 := by
      rw [AL.find_modify]
      split
      · rename_i hnp
        rw [← hnp, hon']
        exact ⟨_, rfl⟩
      · exact ⟨nx, hon'⟩
    obtain ⟨nx1, hon1⟩ := hn1
    have hu : unlinked L o = { L with total_qty := wrap64 (L.total_qty - o.qty) } := by
      simp [unlinked, hop, hon]
    rw [hu]
    simp only [hop', hon1]
    refine ⟨_, rfl, ?_⟩
    intro x hx
    rw [AL.find_modify, if_neg hx, AL.find_modify, AL.find_modify]
    by_cases hxn : x = n
    · subst hxn
      rw [if_pos rfl]
      by_cases hxp : x = p
      · subst hxp
        rw [if_pos rfl, hop']
        simp [relink, hop, hon]
      · have : ¬ p = x := fun h => hxp h.symm
        rw [if_neg hxp, hon']
        simp [relink, hop, hon, this]
    · have hnx : ¬ n = x := fun h => hxn h.symm
      rw [if_neg hxn, AL.find_modify]
      by_cases hxp : x = p
      · subst hxp
        rw [if_pos rfl, hop']
        simp [relink, hop, hon, hnx]
      · have : ¬ p = x := fun h => hxp h.symm
        rw [if_neg hxp]
        cases AL.find h x <;> simp [relink, hop, hon, this, hnx]

theorem AL.find_isSome_modify {κ ν : Type} [DecidableEq κ] (l : List (κ × ν)) (k : κ)
    (f : ν → ν) (k1 : κ) : (AL.find (AL.modify l k f) k1).isSome = (AL.find l k1).isSome := by
  rw [AL.find_modify]
  split
  · rename_i hk
    subst hk
    cases AL.find l k1 <;> rfl
  · rfl

theorem PriceLevel.remove_frame (L L1 : PriceLevel) (h h1 : Heap) (a : OrderPtr)
    (hr : PriceLevel.remove L h a = .ok (L1, h1)) :
    L1.self = L.self ∧ L1.price = L.price ∧ h1.length = h.length ∧
      (∀ x, (AL.find h1 x).isSome = (AL.find h x).isSome) ∧
      ∃ o, AL.find h a = some o ∧ L1.total_qty = wrap64 (L.total_qty - o.qty) := by
  unfold PriceLevel.remove at hr
  cases ha : AL.find h a with
  | none => simp [ha] at hr
  | some o =>
    rw [ha] at hr
    simp only at hr
    split at hr
    · cases hr
    · rename_i lvl1 hh1 hstep1
      split at hr
      · cases hr
      · rename_i lvl2 hh2 hstep2
        simp only [Except.ok.injEq, Prod.mk.injEq] at hr
        obtain ⟨rfl, rfl⟩ := hr
        have e1 : lvl1.self = L.self ∧ lvl1.price = L.price ∧ lvl1.total_qty = L.total_qty ∧
            hh1.length = h.length ∧ ∀ x, (AL.find hh1 x).isSome = (AL.find h x).isSome := by
          split at hstep1
          · split at hstep1
            · cases hstep1
            · simp only [Except.ok.injEq, Prod.mk.injEq] at hstep1
              obtain ⟨rfl, rfl⟩ := hstep1
              simp [AL.length_modify, AL.find_isSome_modify]
          · simp only [Except.ok.injEq, Prod.mk.injEq] at hstep1
            obtain ⟨rfl, rfl⟩ := hstep1
            simp
        have e2 : lvl2.self = lvl1.self ∧ lvl2.price = lvl1.price ∧
            lvl2.total_qty = lvl1.total_qty ∧ hh2.length = hh1.length ∧
            ∀ x, (AL.find hh2 x).isSome = (AL.find hh1 x).isSome := by
          split at hstep2
          · split at hstep2
            · cases hstep2
            · simp only [Except.ok.injEq, Prod.mk.injEq] at hstep2
              obtain ⟨rfl, rfl⟩ := hstep2
              simp [AL.length_modify, AL.find_isSome_modify]
          · simp only [Except.ok.injEq, Prod.mk.injEq] at hstep2
            obtain ⟨rfl, rfl⟩ := hstep2
            simp
        refine ⟨by simp [e1.1, e2.1], by simp [e1.2.1, e2.2.1], ?_, ?_, o, rfl, ?_⟩
        · rw [AL.length_modify, e2.2.2.2.1, e1.2.2.2.1]
        · intro x
          rw [AL.find_isSome_modify, e2.2.2.2.2, e1.2.2.2.2]
        · simp [e1.2.2.1, e2.2.2.1]

/-! ## The inner matching loop -/

theorem Book.with_front_heap (b : Book) (s : Side) (k : Price) (rest : Ladder) (h : Heap)
    (ix : Index) (lvl : PriceLevel) : (b.with_front s k rest h ix lvl).heap = h := by
  cases s <;> rfl

theorem Book.with_front_index (b : Book) (s : Side) (k : Price) (rest : Ladder) (h : Heap)
    (ix : Index) (lvl : PriceLevel) : (b.with_front s k rest h ix lvl).order_index_ = ix := by
  cases s <;> rfl

theorem Book.with_front_next_order (b : Book) (s : Side) (k : Price) (rest : Ladder) (h : Heap)
    (ix : Index) (lvl : PriceLevel) :
    (b.with_front s k rest h ix lvl).next_order = b.next_order := by
  cases s <;> rfl

theorem Book.with_front_next_level (b : Book) (s : Side) (k : Price) (rest : Ladder) (h : Heap)
    (ix : Index) (lvl : PriceLevel) :
    (b.with_front s k rest h ix lvl).next_level = b.next_level := by
  cases s <;> rfl

theorem Book.with_front_ladder (b : Book) (s : Side) (k : Price) (rest : Ladder) (h : Heap)
    (ix : Index) (lvl : PriceLevel) (s1 : Side) :
    (b.with_front s k rest h ix lvl).ladder s1 =
      if s1 = s then (k, lvl) :: rest else b.ladder s1 := by
  cases s <;> cases s1 <;> rfl

theorem Book.with_front_self (b : Book) (s : Side) (k : Price) (rest : Ladder)
    (lvl : PriceLevel) (hl : b.ladder s = (k, lvl) :: rest) :
    b.with_front s k rest b.heap b.order_index_ lvl = b := by
  cases s <;> simp only [Book.ladder] at hl <;> simp [Book.with_front, Book.set_ladder, ← hl]

theorem front_sorted {b : Book} {s : Side} {k : Price} {rest : Ladder} {h h1 : Heap}
    {ix ix1 : Index} {lvl lvl1 : PriceLevel} (hI : Inv (b.with_front s k rest h ix lvl)) :
    ∀ s1, ((b.with_front s k rest h1 ix1 lvl1).ladder s1).Pairwise
      (fun x y => key_before s1 x.1 y.1 = true) := by
  intro s1
  have := hI.sorted s1
  rw [Book.with_front_ladder] at this ⊢
  split
  · rename_i hs
    rw [if_pos hs] at this
    rw [List.pairwise_cons] at this ⊢
    exact this
  · rename_i hs
    rw [if_neg hs] at this
    exact this

theorem front_lad {b : Book} {s : Side} {k : Price} {rest : Ladder} {h h1 : Heap}
    {ix ix1 : Index} {lvl lvl1 : PriceLevel} (hI : Inv (b.with_front s k rest h ix lvl))
    (f : PriceLevel → PriceLevel) (hq : lvl1.same_queue (f lvl)) :
    ∀ s1 k1 L1, (k1, L1) ∈ (b.with_front s k rest h1 ix1 lvl1).ladder s1 →
      ∃ L0, (k1, L0) ∈ (b.with_front s k rest h ix lvl).ladder s1 ∧
        L1.same_queue (if L0.self = lvl.self then f L0 else L0) := by
  intro s1 k1 L1 h1
  have hfront : (k, lvl) ∈ (b.with_front s k rest h ix lvl).ladder s := by
    rw [Book.with_front_ladder, if_pos rfl]
    exact List.mem_cons_self _ _
  have hsame : ∀ L0 : PriceLevel, L0.same_queue L0 := fun L0 => ⟨rfl, rfl, rfl, rfl⟩
  rw [Book.with_front_ladder] at h1
  by_cases hs : s1 = s
  · subst hs
    rw [if_pos rfl] at h1
    rcases List.mem_cons.1 h1 with h1 | h1
    · obtain ⟨rfl, rfl⟩ := Prod.mk.inj h1
      exact ⟨lvl, hfront, by rw [if_pos rfl]; exact hq⟩
    · have hm : (k1, L1) ∈ (b.with_front s1 k rest h ix lvl).ladder s1 := by
        rw [Book.with_front_ladder, if_pos rfl]
        exact List.mem_cons_of_mem _ h1
      refine ⟨L1, hm, ?_⟩
      have hne : L1.self ≠ lvl.self := by
        intro he
        have hk := (hI.self_inj s1 k1 L1 s1 k lvl hm hfront he).2
        have hsrt := hI.sorted s1
        rw [Book.with_front_ladder, if_pos rfl, List.pairwise_cons] at hsrt
        have := hsrt.1 _ h1
        rw [hk] at this
        simp [key_before_irrefl] at this
      rw [if_neg hne]
      exact hsame L1
  · rw [if_neg hs] at h1
    have hm : (k1, L1) ∈ (b.with_front s k rest h ix lvl).ladder s1 := by
      rw [Book.with_front_ladder, if_neg hs]
      exact h1
    refine ⟨L1, hm, ?_⟩
    have hne : L1.self ≠ lvl.self := by
      intro he
      exact hs (hI.self_inj s1 k1 L1 s k lvl hm hfront he).1
    rw [if_neg hne]
    exact hsame L1

/-- Filling the first order of the front level without removing it. -/
theorem front_fill {b : Book} {s : Side} {k : Price} {rest : Ladder} {h : Heap}
    {ix : Index} {lvl : PriceLevel} (hI : Inv (b.with_front s k rest h ix lvl))
    (a : OrderPtr) (q : Qty → Qty) (t : Qty) :
    Inv (b.with_front s k rest (AL.modify h a (fun x => { x with qty := q x.qty })) ix
      { lvl with total_qty := t }) := by
  refine Inv.weaken hI (front_sorted hI) ?_ ?_ ?_ ?_ ?_
  · intro s1 k1 L1 h1
    have hq0 : PriceLevel.same_queue { lvl with total_qty := t } (id lvl) := ⟨rfl, rfl, rfl, rfl⟩
    obtain ⟨L0, hL0, hq⟩ := front_lad hI id hq0 s1 k1 L1 h1
    refine ⟨L0, hL0, ?_⟩
    simpa using hq
  · intro x
    rw [Book.with_front_heap, Book.with_front_heap, AL.find_modify]
    split
    · rename_i hx
      subst hx
      cases AL.find h x <;> simp [Order.links]
    · rfl
  · intro i c hc
    rw [Book.with_front_index] at hc ⊢
    exact hc
  · rw [Book.with_front_next_order, Book.with_front_next_order]
  · rw [Book.with_front_next_level, Book.with_front_next_level]

/-- Removing the first order of the front level after it has been filled. -/
theorem front_unlink {b : Book} {s : Side} {k : Price} {rest : Ladder} {h : Heap}
    {ix : Index} {lvl : PriceLevel} (hI : Inv (b.with_front s k rest h ix lvl))
    {a : OrderPtr} {m : Order} (hhead : lvl.head = some a) (hm : AL.find h a = some m)
    (q t : Qty) :
    ∃ h2, PriceLevel.remove { lvl with total_qty := t }
        (AL.modify h a (fun x => { x with qty := wrap64 (x.qty - q) })) a =
          .ok (unlinked { lvl with total_qty := t } { m with qty := wrap64 (m.qty - q) }, h2) ∧
      Inv (b.with_front s k rest (AL.erase h2 a) (AL.erase ix m.id)
        (unlinked { lvl with total_qty := t } { m with qty := wrap64 (m.qty - q) })) ∧
      (∀ x o1, AL.find (AL.erase h2 a) x = some o1 → ∃ o, AL.find h x = some o ∧
        o1.id = o.id ∧ o1.side = o.side ∧ o1.px = o.px ∧ o1.level = o.level) ∧
      (AL.erase h2 a).length < h.length := by
  have hfront : (k, lvl) ∈ (b.with_front s k rest h ix lvl).ladder s := by
    rw [Book.with_front_ladder, if_pos rfl]
    exact List.mem_cons_self _ _
  have hm' : AL.find (b.with_front s k rest h ix lvl).heap a = some m := by
    rw [Book.with_front_heap]; exact hm
  obtain ⟨o, ho, hlv, hprev⟩ := hI.head_ok s k lvl a hfront hhead
  rw [hm'] at ho
  cases ho
  have hf1 : AL.find (AL.modify h a (fun x => { x with qty := wrap64 (x.qty - q) })) a =
      some { m with qty := wrap64 (m.qty - q) } := by
    rw [AL.find_modify, if_pos rfl, hm]; rfl
  obtain ⟨h2, hrem, hh2⟩ := PriceLevel.remove_spec { lvl with total_qty := t }
    (AL.modify h a (fun x => { x with qty := wrap64 (x.qty - q) })) a { m with qty := wrap64 (m.qty - q) } hf1
    (by
      intro p hp
      have : m.prev = some p := hp
      rw [hprev] at this
      cases this)
    (by
      intro n hn
      have hn' : m.next = some n := hn
      obtain ⟨oc, hoc, _, _⟩ := hI.next_ok a m n hm' hn'
      rw [Book.with_front_heap] at hoc
      rw [AL.find_modify]
      split
      · rename_i hna
        rw [hna] at hoc
        rw [hoc]
        exact ⟨_, rfl⟩
      · exact ⟨oc, hoc⟩)
  have hfr := PriceLevel.remove_frame _ _ _ _ _ hrem
  have hx2 : ∀ x, x ≠ a → AL.find h2 x = (AL.find h x).map (relink m x) := by
    intro x hx
    rw [hh2 x hx, AL.find_modify, if_neg hx]
    rfl
  refine ⟨h2, hrem, ?_, ?_, ?_⟩
  · have hq0 : PriceLevel.same_queue
        (unlinked { lvl with total_qty := t } { m with qty := wrap64 (m.qty - q) })
        ((fun L => unlinked L m) lvl) := ⟨rfl, rfl, rfl, rfl⟩
    refine Inv.unlink hI hm' hlv hfront (front_sorted hI)
      (front_lad hI (fun L => unlinked L m) hq0) ?_ ?_ ?_ ?_
    · intro x
      rw [Book.with_front_heap, Book.with_front_heap, AL.find_erase]
      split
      · rfl
      · rename_i hx
        rw [hx2 x hx]
        cases AL.find h x <;> rfl
    · intro i c hc
      rw [Book.with_front_index] at hc ⊢
      rw [AL.find_erase] at hc
      split at hc
      · cases hc
      · rename_i hi
        exact ⟨hi, hc⟩
    · rw [Book.with_front_next_order, Book.with_front_next_order]
    · rw [Book.with_front_next_level, Book.with_front_next_level]
  · intro x o1 hx
    rw [AL.find_erase] at hx
    split at hx
    · cases hx
    · rename_i hxa
      rw [hx2 x hxa] at hx
      cases hfx : AL.find h x with
      | none => simp [hfx] at hx
      | some ox =>
        rw [hfx] at hx
        simp only [Option.map_some', Option.some.injEq] at hx
        subst hx
        exact ⟨ox, rfl, rfl, rfl, rfl, rfl⟩
  · have hs2 : (AL.find h2 a).isSome = true := by
      rw [hfr.2.2.2.1 a, hf1]; rfl
    obtain ⟨v, hv⟩ := Option.isSome_iff_exists.1 hs2
    have := AL.length_erase_lt h2 a v hv
    rw [hfr.2.2.1, AL.length_modify] at this
    exact this

theorem qty_exact_step (tq mq tq1 : Qty) (made : List Trade) (t0 : Trade)
    (ht0 : t0.qty = min tq mq)
    (ih : 0 ≤ wrap64 (tq - min tq mq) →
      (∀ n, wrap64 (tq - min tq mq) - (((made.take n).map Trade.qty).sum) ≤ QTY_MAX) →
      tq1 = wrap64 (tq - min tq mq) - (made.map Trade.qty).sum ∧ 0 ≤ tq1) :
    0 ≤ tq → (∀ n, tq - ((((t0 :: made).take n).map Trade.qty).sum) ≤ QTY_MAX) →
      tq1 = tq - ((t0 :: made).map Trade.qty).sum ∧ 0 ≤ tq1 := by
  intro h0 hall
  have h1 := hall 1
  simp only [List.take_succ_cons, List.take_zero, List.map_cons, List.map_nil, List.sum_cons,
    List.sum_nil, add_zero, ht0] at h1
  have hle : min tq mq ≤ tq := min_le_left _ _
  have hw : wrap64 (tq - min tq mq) = tq - min tq mq := by
    apply wrap64_eq
    · unfold QTY_MIN
      simp only [Qty] at *
      omega
    · exact h1
  rw [hw] at ih
  obtain ⟨e1, e2⟩ := ih (by simp only [Qty] at *; omega)
    (by
      intro n
      have hn := hall (n + 1)
      simp only [List.take_succ_cons, List.map_cons, List.sum_cons, ht0] at hn
      simp only [Qty] at *
      omega)
  simp only [List.map_cons, List.sum_cons, ht0]
  simp only [Qty] at *
  exact ⟨by omega, e2⟩

theorem take_sum_le_of_nonneg (qty : Qty) (T : List Trade) (hmax : qty ≤ QTY_MAX)
    (hT : ∀ t ∈ T, 0 ≤ t.qty) (n : Nat) :
    qty - (((T.take n).map Trade.qty).sum) ≤ QTY_MAX := by
  have hs : 0 ≤ ((T.take n).map Trade.qty).sum := by
    apply List.sum_nonneg
    intro x hx
    obtain ⟨t, ht, rfl⟩ := List.mem_map.1 hx
    exact hT t (List.mem_of_mem_take ht)
  simp only [Qty] at *
  omega

theorem match_level_spec (side : Side) (ts : TimeNs) (b : Book) (s : Side) (k : Price)
    (rest : Ladder) :
    ∀ (n : Nat) (h : Heap) (ix : Index) (lvl : PriceLevel) (tq : Qty) (out : List Trade),
      Inv (b.with_front s k rest h ix lvl) → 1 ≤ n → (0 < tq → h.length < n) →
      ∃ h1 ix1 lvl1 tq1 made,
        match_level side ts n h ix lvl tq out = .ok (h1, ix1, lvl1, tq1, out ++ made) ∧
        Inv (b.with_front s k rest h1 ix1 lvl1) ∧
        LevelRun side ts h ix lvl tq h1 ix1 lvl1 tq1 made := by
  intro n
  induction n with
  | zero =>
    intro h ix lvl tq out _ h1 _
    exact absurd h1 (by decide)
  | succ n ih =>
    intro h ix lvl tq out hI _ hfuel
    rw [match_level]
    by_cases htq : tq > 0
    · rw [if_pos htq]
      have hfront : (k, lvl) ∈ (b.with_front s k rest h ix lvl).ladder s := by
        rw [Book.with_front_ladder, if_pos rfl]
        exact List.mem_cons_self _ _
      cases hhead : lvl.head with
      | none =>
        refine ⟨h, ix, lvl, tq, [], by simp, hI, ?_⟩
        exact ⟨rfl, rfl, fun h0 _ => ⟨by simp, h0⟩, Or.inr hhead, by simp,
          fun _ _ h => h, fun a o1 h => ⟨o1, h, rfl, rfl, rfl, rfl⟩, le_refl _⟩
      | some a =>
        obtain ⟨m, hm, hlv, _⟩ := hI.head_ok s k lvl a hfront hhead
        rw [Book.with_front_heap] at hm
        simp only [hm]
        have hlen1 : 1 ≤ h.length := by
          have := AL.length_erase_lt h a m hm
          omega
        have hn1 : 1 ≤ n := by
          have := hfuel htq
          omega
        by_cases hz : wrap64 (m.qty - min tq m.qty) = 0
        · rw [if_pos hz]
          obtain ⟨h2, hrem, hI2, hsub, hlen⟩ :=
            front_unlink hI hhead hm (min tq m.qty) (wrap64 (lvl.total_qty - min tq m.qty))
          rw [hhead] at hrem hI2
          rw [hrem]
          simp only
          obtain ⟨h1, ix1, lvl1, tq1, made, heq, hI1, hrun⟩ := ih _ _ _ (wrap64 (tq - min tq m.qty))
            (out ++ [{ taker_id := 0, maker_id := m.id, taker_side := side,
                        price := lvl.price, qty := min tq m.qty, ts := ts }]) hI2 hn1
            (by
              intro _
              have := hfuel htq
              omega)
          refine ⟨h1, ix1, lvl1, tq1,
            { taker_id := 0, maker_id := m.id, taker_side := side, price := lvl.price,
              qty := min tq m.qty, ts := ts } :: made, by rw [heq]; simp, hI1, ?_⟩
          refine ⟨hrun.self_eq, hrun.price_eq, ?_, hrun.stop, ?_, ?_, ?_, ?_⟩
          · exact qty_exact_step tq m.qty tq1 made _ rfl hrun.qty_exact
          · intro t ht
            rcases List.mem_cons.1 ht with rfl | ht
            · exact ⟨rfl, rfl, rfl, a, m, hm, rfl, hlv⟩
            · obtain ⟨hp, hsd, hts, a1, o1, ho1, hid, hl1⟩ := hrun.trades t ht
              obtain ⟨o, ho, e1, _, _, e4⟩ := hsub a1 o1 ho1
              exact ⟨hp, hsd, hts, a1, o, ho, by rw [← e1, hid], by rw [← e4, hl1]; rfl⟩
          · intro i c hc
            have := hrun.index_sub i c hc
            rw [AL.find_erase] at this
            split at this
            · cases this
            · exact this
          · intro a1 o1 ho1
            obtain ⟨o2, ho2, e1, e2, e3, e4⟩ := hrun.heap_sub a1 o1 ho1
            obtain ⟨o, ho, f1, f2, f3, f4⟩ := hsub a1 o2 ho2
            exact ⟨o, ho, e1.trans f1, e2.trans f2, e3.trans f3, e4.trans f4⟩
          · have := hrun.heap_len
            omega
        · rw [if_neg hz]
          have hI2 := front_fill hI a (fun x => wrap64 (x - min tq m.qty))
            (wrap64 (lvl.total_qty - min tq m.qty))
          rw [hhead] at hI2
          have htq0 : wrap64 (tq - min tq m.qty) = 0 := by
            have hne : m.qty - min tq m.qty ≠ 0 := fun h => hz (by rw [h]; exact wrap64_zero)
            have hmin : min tq m.qty = tq := by
              simp only [Qty] at *
              omega
            rw [hmin]
            exact wrap64_sub_self tq
          obtain ⟨h1, ix1, lvl1, tq1, made, heq, hI1, hrun⟩ := ih _ _ _ (wrap64 (tq - min tq m.qty))
            (out ++ [{ taker_id := 0, maker_id := m.id, taker_side := side,
                        price := lvl.price, qty := min tq m.qty, ts := ts }]) hI2 hn1
            (by
              intro h0
              rw [htq0] at h0
              exact absurd h0 (by decide))
          refine ⟨h1, ix1, lvl1, tq1,
            { taker_id := 0, maker_id := m.id, taker_side := side, price := lvl.price,
              qty := min tq m.qty, ts := ts } :: made, by rw [heq]; simp, hI1, ?_⟩
          refine ⟨hrun.self_eq, hrun.price_eq, ?_, hrun.stop, ?_, hrun.index_sub, ?_, ?_⟩
          · exact qty_exact_step tq m.qty tq1 made _ rfl hrun.qty_exact
          · intro t ht
            rcases List.mem_cons.1 ht with rfl | ht
            · exact ⟨rfl, rfl, rfl, a, m, hm, rfl, hlv⟩
            · obtain ⟨hp, hsd, hts, a1, o1, ho1, hid, hl1⟩ := hrun.trades t ht
              rw [AL.find_modify] at ho1
              split at ho1
              · rename_i ha1
                subst ha1
                rw [hm] at ho1
                simp only [Option.map_some', Option.some.injEq] at ho1
                subst ho1
                exact ⟨hp, hsd, hts, a1, m, hm, hid, hl1⟩
              · exact ⟨hp, hsd, hts, a1, o1, ho1, hid, hl1⟩
          · intro a1 o1 ho1
            obtain ⟨o2, ho2, e1, e2, e3, e4⟩ := hrun.heap_sub a1 o1 ho1
            rw [AL.find_modify] at ho2
            split at ho2
            · rename_i ha1
              subst ha1
              rw [hm] at ho2
              simp only [Option.map_some', Option.some.injEq] at ho2
              subst ho2
              exact ⟨m, hm, e1, e2, e3, e4⟩
            · exact ⟨o2, ho2, e1, e2, e3, e4⟩
          · have := hrun.heap_len
            rw [AL.length_modify] at this
            exact this
    · rw [if_neg htq]
      refine ⟨h, ix, lvl, tq, [], by simp, hI, ?_⟩
      exact ⟨rfl, rfl, fun h0 _ => ⟨by simp, h0⟩, Or.inl (not_lt.1 htq), by simp,
        fun _ _ h => h, fun a o1 h => ⟨o1, h, rfl, rfl, rfl, rfl⟩, le_refl _⟩

/-! ## The outer matching loop -/

theorem Book.set_ladder_ladder (b : Book) (s : Side) (l : Ladder) (s1 : Side) :
    (b.set_ladder s l).ladder s1 = if s1 = s then l else b.ladder s1 := by
  cases s <;> cases s1 <;> rfl

theorem opposite_ne (s : Side) : s ≠ opposite s := by
  cases s <;> simp [opposite]

theorem opposite_ne' (s : Side) : opposite s ≠ s := by
  cases s <;> simp [opposite]

/-- Erasing the front level of a ladder. -/
theorem front_drop {b : Book} {s : Side} {k : Price} {rest : Ladder} {h : Heap}
    {ix : Index} {lvl : PriceLevel} (hI : Inv (b.with_front s k rest h ix lvl)) :
    Inv ({ b with heap := h, order_index_ := ix }.set_ladder s rest) := by
  refine Inv.weaken hI ?_ ?_ ?_ ?_ ?_ ?_
  · intro s1
    have := hI.sorted s1
    rw [Book.with_front_ladder] at this
    rw [Book.set_ladder_ladder]
    split
    · rename_i hs
      rw [if_pos hs] at this
      exact (List.pairwise_cons.1 this).2
    · rename_i hs
      rw [if_neg hs] at this
      cases s <;> cases s1 <;> first | exact absurd rfl hs | exact this
  · intro s1 k1 L1 h1
    refine ⟨L1, ?_, rfl, rfl, rfl, rfl⟩
    rw [Book.set_ladder_ladder] at h1
    rw [Book.with_front_ladder]
    split
    · rename_i hs
      rw [if_pos hs] at h1
      exact List.mem_cons_of_mem _ h1
    · rename_i hs
      rw [if_neg hs] at h1
      cases s <;> cases s1 <;> first | exact absurd rfl hs | exact h1
  · intro x
    rw [Book.with_front_heap]
    cases s <;> rfl
  · intro i c hc
    rw [Book.with_front_index]
    cases s <;> exact hc
  · rw [Book.with_front_next_order]
    cases s <;> exact le_refl _
  · rw [Book.with_front_next_level]
    cases s <;> exact le_refl _

theorem no_better_refl (side : Side) (p : Price) : no_better side p p := by
  cases side <;> exact le_refl p

theorem no_better_of_key_before (side : Side) (p q : Price)
    (h : key_before (opposite side) p q = true) : no_better side p q := by
  cases side <;> simp only [opposite, key_before, decide_eq_true_eq, gt_iff_lt] at h <;>
    exact le_of_lt h

theorem MatchRun.refl (side : Side) (taker_price : Price) (ts : TimeNs) (b : Book) (tq : Qty)
    (hstop : tq ≤ 0 ∨ b.ladder (opposite side) = [] ∨
      ∃ k L rest, b.ladder (opposite side) = (k, L) :: rest ∧
        no_cross side L.price taker_price = true) :
    MatchRun side taker_price ts b tq b tq [] :=
  ⟨rfl, rfl, rfl, fun h0 _ => ⟨by simp, h0⟩, by simp, by simp, fun _ _ h => h,
    fun _ o1 h => ⟨o1, h, rfl, rfl, rfl, rfl⟩, fun _ L1 h => ⟨L1, h, rfl⟩, hstop⟩

/-- A run of the inner loop on the front level followed by a run of the outer loop. -/
theorem MatchRun.after_level {side : Side} {taker_price : Price} {ts : TimeNs} {b : Book}
    {k : Price} {lvl : PriceLevel} {rest : Ladder} (hI : Inv b)
    (hl : b.ladder (opposite side) = (k, lvl) :: rest)
    (hc : no_cross side lvl.price taker_price = false)
    {tq tq1 : Qty} {h1 : Heap} {ix1 : Index} {lvl1 : PriceLevel} {made1 : List Trade}
    (hrun : LevelRun side ts b.heap b.order_index_ lvl tq h1 ix1 lvl1 tq1 made1)
    {b' : Book} (hheap : b'.heap = h1) (hix : b'.order_index_ = ix1)
    (hown : b'.ladder side = b.ladder side)
    (hopp : b'.ladder (opposite side) = rest ∨ b'.ladder (opposite side) = (k, lvl1) :: rest)
    (hno : b'.next_order = b.next_order) (hnl : b'.next_level = b.next_level)
    {b2 : Book} {tq2 : Qty} {made2 : List Trade}
    (hrun2 : MatchRun side taker_price ts b' tq1 b2 tq2 made2) :
    MatchRun side taker_price ts b tq b2 tq2 (made1 ++ made2) := by
  have hfront : (k, lvl) ∈ b.ladder (opposite side) := by
    rw [hl]; exact List.mem_cons_self _ _
  have hprice : lvl.price = k := (hI.level_ok _ k lvl hfront).1
  have hback : ∀ k1 L1, (k1, L1) ∈ b'.ladder (opposite side) →
      ∃ L, (k1, L) ∈ b.ladder (opposite side) ∧ L1.self = L.self ∧
        (k1 = k ∨ key_before (opposite side) k k1 = true) := by
    intro k1 L1 hm
    have hsrt := hI.sorted (opposite side)
    rw [hl, List.pairwise_cons] at hsrt
    rcases hopp with ho | ho
    · rw [ho] at hm
      exact ⟨L1, by rw [hl]; exact List.mem_cons_of_mem _ hm, rfl, Or.inr (hsrt.1 _ hm)⟩
    · rw [ho] at hm
      rcases List.mem_cons.1 hm with hm | hm
      · obtain ⟨rfl, rfl⟩ := Prod.mk.inj hm
        exact ⟨lvl, hfront, hrun.self_eq, Or.inl rfl⟩
      · exact ⟨L1, by rw [hl]; exact List.mem_cons_of_mem _ hm, rfl, Or.inr (hsrt.1 _ hm)⟩
  refine ⟨hrun2.own_ladder.trans hown, hrun2.next_order_eq.trans hno,
    hrun2.next_level_eq.trans hnl, ?_, ?_, ?_, ?_, ?_, ?_, hrun2.stop⟩
  · intro h0 hall
    obtain ⟨e1, e2⟩ := hrun.qty_exact h0
      (by
        intro n
        by_cases hn : n ≤ made1.length
        · have := hall n
          rw [List.take_append_of_le_length hn] at this
          exact this
        · have := hall made1.length
          rw [List.take_append_of_le_length (le_refl _), List.take_length] at this
          rw [List.take_of_length_le (le_of_lt (not_le.1 hn))]
          exact this)
    obtain ⟨f1, f2⟩ := hrun2.qty_exact e2
      (by
        intro n
        have := hall (made1.length + n)
        rw [List.take_append, List.map_append, List.sum_append] at this
        rw [e1]
        simp only [Qty] at *
        omega)
    simp only [List.map_append, List.sum_append]
    simp only [Qty] at *
    exact ⟨by omega, f2⟩
  · intro t ht
    rcases List.mem_append.1 ht with ht | ht
    · obtain ⟨hp, hsd, hts, a, o, ho, hid, hlv⟩ := hrun.trades t ht
      refine ⟨hsd, hts, by rw [hp]; exact hc, a, o, lvl, ho, hid, hlv, ?_⟩
      rw [hp, hprice]
      exact hfront
    · obtain ⟨hsd, hts, hnc, a, o, L, ho, hid, hlv, hm⟩ := hrun2.trades t ht
      rw [hheap] at ho
      obtain ⟨o0, ho0, e1, _, _, e4⟩ := hrun.heap_sub a o ho
      obtain ⟨L0, hL0, hs0, _⟩ := hback _ L hm
      exact ⟨hsd, hts, hnc, a, o0, L0, ho0, by rw [← e1, hid], by rw [← e4, hlv, hs0], hL0⟩
  · rw [List.pairwise_append]
    refine ⟨?_, hrun2.prices, ?_⟩
    · refine List.pairwise_of_forall_mem_list ?_
      intro t ht u hu
      rw [(hrun.trades t ht).1, (hrun.trades u hu).1]
      exact no_better_refl side _
    · intro t ht u hu
      rw [(hrun.trades t ht).1, hprice]
      obtain ⟨_, _, _, a, o, L, _, _, _, hm⟩ := hrun2.trades u hu
      obtain ⟨_, _, _, hk⟩ := hback _ L hm
      rcases hk with hk | hk
      · rw [hk]
        exact no_better_refl side _
      · exact no_better_of_key_before side _ _ hk
  · intro i c hc2
    have := hrun2.index_sub i c hc2
    rw [hix] at this
    exact hrun.index_sub i c this
  · intro a o2 ho2
    obtain ⟨o1, ho1, e1, e2, e3, e4⟩ := hrun2.heap_sub a o2 ho2
    rw [hheap] at ho1
    obtain ⟨o, ho, f1, f2, f3, f4⟩ := hrun.heap_sub a o1 ho1
    exact ⟨o, ho, e1.trans f1, e2.trans f2, e3.trans f3, e4.trans f4⟩
  · intro k2 L2 hm2
    obtain ⟨L1, hL1, hs1⟩ := hrun2.opp_sub k2 L2 hm2
    obtain ⟨L0, hL0, hs0, _⟩ := hback k2 L1 hL1
    exact ⟨L0, hL0, hs1.trans hs0⟩

theorem match_against_spec (side : Side) (taker_price : Price) (ts : TimeNs) :
    ∀ (n : Nat) (b : Book) (tq : Qty) (out : List Trade),
      Inv b → 1 ≤ n → (0 < tq → (b.ladder (opposite side)).length + 1 < n) →
      ∃ b1 tq1 made,
        match_against side taker_price ts n b tq out = .ok (b1, tq1, out ++ made) ∧
        Inv b1 ∧ MatchRun side taker_price ts b tq b1 tq1 made := by
  intro n
  induction n with
  | zero =>
    intro b tq out _ h1 _
    exact absurd h1 (by decide)
  | succ n ih =>
    intro b tq out hI _ hfuel
    rw [match_against]
    by_cases htq : tq > 0
    · rw [if_pos htq]
      have hfuel' := hfuel htq
      cases hl : b.ladder (opposite side) with
      | nil =>
        exact ⟨b, tq, [], by simp, hI, MatchRun.refl side taker_price ts b tq (Or.inr (Or.inl hl))⟩
      | cons e rest =>
        obtain ⟨k, lvl⟩ := e
        rw [hl] at hfuel'
        simp only [List.length_cons] at hfuel'
        simp only
        by_cases hc : no_cross side lvl.price taker_price = true
        · rw [if_pos hc]
          exact ⟨b, tq, [], by simp, hI,
            MatchRun.refl side taker_price ts b tq (Or.inr (Or.inr ⟨k, lvl, rest, hl, hc⟩))⟩
        · rw [if_neg hc]
          have hc' : no_cross side lvl.price taker_price = false := by
            simpa using hc
          have hW := Book.with_front_self b (opposite side) k rest lvl hl
          have hIW : Inv (b.with_front (opposite side) k rest b.heap b.order_index_ lvl) := by
            rw [hW]; exact hI
          obtain ⟨h1, ix1, lvl1, tq1, made1, heq1, hI1, hrun⟩ :=
            match_level_spec side ts b (opposite side) k rest (b.heap.length + 1) b.heap
              b.order_index_ lvl tq out hIW (Nat.le_add_left 1 _) (fun _ => Nat.lt_succ_self _)
          rw [heq1]
          simp only
          by_cases he : lvl1.empty = true
          · rw [if_pos he]
            have hI2 := front_drop hI1
            obtain ⟨b2, tq2, made2, heq2, hI3, hrun2⟩ := ih _ tq1 (out ++ made1) hI2 (by omega)
              (by
                intro _
                rw [Book.set_ladder_ladder, if_pos rfl]
                omega)
            refine ⟨b2, tq2, made1 ++ made2, by rw [heq2]; simp, hI3, ?_⟩
            refine MatchRun.after_level hI hl hc' hrun ?_ ?_ ?_ ?_ ?_ ?_ hrun2
            · cases side <;> rfl
            · cases side <;> rfl
            · rw [Book.set_ladder_ladder, if_neg (opposite_ne side)]
              cases side <;> rfl
            · left
              rw [Book.set_ladder_ladder, if_pos rfl]
            · cases side <;> rfl
            · cases side <;> rfl
          · rw [if_neg he]
            have htq1 : tq1 ≤ 0 := by
              rcases hrun.stop with h | h
              · exact h
              · exact absurd (by simp [PriceLevel.empty, h]) he
            obtain ⟨b2, tq2, made2, heq2, hI3, hrun2⟩ := ih _ tq1 (out ++ made1) hI1 (by omega)
              (by
                intro h0
                exact absurd h0 (not_lt.2 htq1))
            refine ⟨b2, tq2, made1 ++ made2, by rw [← List.append_assoc]; exact heq2, hI3, ?_⟩
            refine MatchRun.after_level hI hl hc' hrun ?_ ?_ ?_ ?_ ?_ ?_ hrun2
            · rw [Book.with_front_heap]
            · rw [Book.with_front_index]
            · rw [Book.with_front_ladder, if_neg (opposite_ne side)]
            · right
              rw [Book.with_front_ladder, if_pos rfl]
            · rw [Book.with_front_next_order]
            · rw [Book.with_front_next_level]
    · rw [if_neg htq]
      exact ⟨b, tq, [], by simp, hI,
        MatchRun.refl side taker_price ts b tq (Or.inl (not_lt.1 htq))⟩

/-! ## Resting an order -/

/-- Appending a freshly allocated order at the tail of level `L`, which is either present in
the ladder of side `s` under key `k` or newly created there. -/
theorem Inv.push {b b1 : Book} (hI : Inv b) {a : OrderPtr} {o : Order} {s : Side} {k : Price}
    {L : PriceLevel} (hfresh : AL.find b.heap a = none)
    (hL : (k, L) ∈ b.ladder s ∨ (L.self = b.next_level ∧ L.head = none ∧ L.tail = none))
    (ho : o.side = s ∧ o.px = k ∧ o.prev = L.tail ∧ o.next = none ∧ o.level = some L.self)
    (hsort : ∀ s1, (b1.ladder s1).Pairwise (fun x y => key_before s1 x.1 y.1 = true))
    (hlad : ∀ s1 k1 L1, (k1, L1) ∈ b1.ladder s1 →
      (∃ L0, (k1, L0) ∈ b.ladder s1 ∧ L0.self ≠ L.self ∧ L1.same_queue L0) ∨
      (s1 = s ∧ k1 = k ∧ L1.self = L.self ∧ L1.price = k ∧ L1.head = L.head ∧ L1.tail = some a))
    (hheap : ∀ x, (AL.find b1.heap x).map Order.links =
      if x = a then some o.links
      else (AL.find b.heap x).map
        (fun ox => ({ ox with next := if L.tail = some x then some a else ox.next } : Order).links))
    (hix : ∀ i c, AL.find b1.order_index_ i = some c →
      AL.find b.order_index_ i = some c ∨ (c = a ∧ i = o.id))
    (hno : a < b1.next_order ∧ b.next_order ≤ b1.next_order)
    (hnl : L.self < b1.next_level ∧ b.next_level ≤ b1.next_level) : Inv b1 := by
  have hnew : ∃ o1, AL.find b1.heap a = some o1 ∧ o1.links = o.links := by
    have := hheap a
    rw [if_pos rfl] at this
    cases h1 : AL.find b1.heap a with
    | none => simp [h1] at this
    | some o1 => exact ⟨o1, rfl, by simpa [h1] using this⟩
  have hfwd : ∀ x ox, AL.find b.heap x = some ox → x ≠ a ∧
      ∃ o1, AL.find b1.heap x = some o1 ∧ o1.links =
        ({ ox with next := if L.tail = some x then some a else ox.next } : Order).links := by
    intro x ox hx
    have hxa : x ≠ a := by
      rintro rfl
      rw [hfresh] at hx
      cases hx
    refine ⟨hxa, ?_⟩
    have := hheap x
    rw [if_neg hxa, hx] at this
    cases h1x : AL.find b1.heap x with
    | none => simp [h1x] at this
    | some o1 => exact ⟨o1, rfl, by simpa [h1x] using this⟩
  have hbwd : ∀ x o1, AL.find b1.heap x = some o1 → x ≠ a →
      ∃ ox, AL.find b.heap x = some ox ∧ o1.links =
        ({ ox with next := if L.tail = some x then some a else ox.next } : Order).links := by
    intro x o1 hx hxa
    have := hheap x
    rw [hx, if_neg hxa] at this
    cases h1x : AL.find b.heap x with
    | none => simp [h1x] at this
    | some ox => exact ⟨ox, rfl, by simpa [h1x] using this⟩
  have htail : ∀ c, L.tail = some c → (k, L) ∈ b.ladder s ∧
      ∃ oc, AL.find b.heap c = some oc ∧ oc.level = some L.self ∧ oc.next = none := by
    intro c hc
    rcases hL with hL | hL
    · exact ⟨hL, hI.tail_ok s k L c hL hc⟩
    · rw [hL.2.2] at hc
      cases hc
  refine ⟨hsort, ?_, ?_, ?_, ?_, ?_, ?_, ?_, ?_, ?_⟩
  · intro s1 k1 L1 h1
    rcases hlad s1 k1 L1 h1 with ⟨L0, hL0, _, hq⟩ | ⟨_, hk, hs, hp, _, _⟩
    · have := hI.level_ok s1 k1 L0 hL0
      exact ⟨hq.2.1.trans this.1, by rw [hq.1]; exact lt_of_lt_of_le this.2 hnl.2⟩
    · exact ⟨by rw [hp, hk], by rw [hs]; exact hnl.1⟩
  · intro s1 k1 L1 s2 k2 L2 h1 h2 he
    rcases hlad s1 k1 L1 h1 with ⟨L0, hL0, hne, hq⟩ | ⟨hs1, hk1, hself1, _, _, _⟩
    · rcases hlad s2 k2 L2 h2 with ⟨L0', hL0', hne', hq'⟩ | ⟨_, _, hself2, _, _, _⟩
      · exact hI.self_inj s1 k1 L0 s2 k2 L0' hL0 hL0' (by rw [← hq.1, ← hq'.1, he])
      · exact absurd (by rw [← hq.1, he, hself2]) hne
    · rcases hlad s2 k2 L2 h2 with ⟨L0', hL0', hne', hq'⟩ | ⟨hs2, hk2, _, _, _, _⟩
      · exact absurd (by rw [← hq'.1, ← he, hself1]) hne'
      · exact ⟨hs1.trans hs2.symm, hk1.trans hk2.symm⟩
  · intro s1 k1 L1 c h1 hh
    have key : ∀ L0 : PriceLevel, (∃ s0 k0, (k0, L0) ∈ b.ladder s0) → L0.head = some c →
        L1.self = L0.self →
        ∃ o1, AL.find b1.heap c = some o1 ∧ o1.level = some L1.self ∧ o1.prev = none := by
      rintro L0 ⟨s0, k0, hL0⟩ hh0 hs0
      obtain ⟨oc, hoc, hlc, hpc⟩ := hI.head_ok s0 k0 L0 c hL0 hh0
      obtain ⟨_, o1, ho1, hl⟩ := hfwd c oc hoc
      have hl := Order.links_eq hl
      exact ⟨o1, ho1, by rw [hl.2.2.2.2.2, hs0]; exact hlc, by rw [hl.2.2.2.1]; exact hpc⟩
    rcases hlad s1 k1 L1 h1 with ⟨L0, hL0, _, hq⟩ | ⟨_, _, hself, _, hhd, _⟩
    · exact key L0 ⟨s1, k1, hL0⟩ (by rw [← hq.2.2.1, hh]) hq.1
    · rcases hL with hL | hL
      · exact key L ⟨s, k, hL⟩ (by rw [← hhd, hh]) hself
      · rw [hhd, hL.2.1] at hh
        cases hh
  · intro s1 k1 L1 c h1 hh
    rcases hlad s1 k1 L1 h1 with ⟨L0, hL0, hne, hq⟩ | ⟨_, _, hself, _, _, htl⟩
    · obtain ⟨oc, hoc, hlc, hpc⟩ := hI.tail_ok s1 k1 L0 c hL0 (by rw [← hq.2.2.2, hh])
      obtain ⟨_, o1, ho1, hl⟩ := hfwd c oc hoc
      have hl := Order.links_eq hl
      have hnt : L.tail ≠ some c := by
        intro ht
        obtain ⟨_, oc', hoc', hlc', _⟩ := htail c ht
        rw [hoc] at hoc'
        cases hoc'
        rw [hlc] at hlc'
        exact hne (Option.some.inj hlc')
      refine ⟨o1, ho1, by rw [hl.2.2.2.2.2, hq.1]; exact hlc, ?_⟩
      rw [hl.2.2.2.2.1]
      simp only [hnt, if_false]
      exact hpc
    · rw [htl] at hh
      cases hh
      obtain ⟨o1, ho1, hl⟩ := hnew
      have hl := Order.links_eq hl
      exact ⟨o1, ho1, by rw [hl.2.2.2.2.2, hself]; exact ho.2.2.2.2,
        by rw [hl.2.2.2.2.1]; exact ho.2.2.2.1⟩
  · intro x o1 c hx hn
    by_cases hxa : x = a
    · subst hxa
      obtain ⟨o1', ho1', hl⟩ := hnew
      rw [hx] at ho1'
      cases ho1'
      have hl := Order.links_eq hl
      rw [hl.2.2.2.2.1, ho.2.2.2.1] at hn
      cases hn
    · obtain ⟨ox, hox, hl⟩ := hbwd x o1 hx hxa
      have hl := Order.links_eq hl
      rw [hl.2.2.2.2.1] at hn
      simp only at hn
      by_cases ht : L.tail = some x
      · rw [if_pos ht] at hn
        cases hn
        obtain ⟨_, ox', hox', hlx, _⟩ := htail x ht
        rw [hox] at hox'
        cases hox'
        obtain ⟨o2, ho2, hl2⟩ := hnew
        have hl2 := Order.links_eq hl2
        refine ⟨o2, ho2, by rw [hl2.2.2.2.1, ho.2.2.1]; exact ht, ?_⟩
        rw [hl2.2.2.2.2.2, hl.2.2.2.2.2, ho.2.2.2.2]
        exact hlx.symm
      · rw [if_neg ht] at hn
        obtain ⟨oc, hoc, hpc, hlc⟩ := hI.next_ok x ox c hox hn
        obtain ⟨_, o2, ho2, hl2⟩ := hfwd c oc hoc
        have hl2 := Order.links_eq hl2
        exact ⟨o2, ho2, by rw [hl2.2.2.2.1]; exact hpc,
          by rw [hl2.2.2.2.2.2, hl.2.2.2.2.2]; exact hlc⟩
  · intro x o1 p hx hp
    by_cases hxa : x = a
    · subst hxa
      obtain ⟨o1', ho1', hl⟩ := hnew
      rw [hx] at ho1'
      cases ho1'
      have hl := Order.links_eq hl
      rw [hl.2.2.2.1, ho.2.2.1] at hp
      obtain ⟨_, op, hop, hlp, _⟩ := htail p hp
      obtain ⟨_, o2, ho2, hl2⟩ := hfwd p op hop
      have hl2 := Order.links_eq hl2
      refine ⟨o2, ho2, ?_, ?_⟩
      · rw [hl2.2.2.2.2.1]
        simp [hp]
      · rw [hl2.2.2.2.2.2, hl.2.2.2.2.2, ho.2.2.2.2]
        exact hlp
    · obtain ⟨ox, hox, hl⟩ := hbwd x o1 hx hxa
      have hl := Order.links_eq hl
      rw [hl.2.2.2.1] at hp
      obtain ⟨op, hop, hnp, hlp⟩ := hI.prev_ok x ox p hox hp
      obtain ⟨_, o2, ho2, hl2⟩ := hfwd p op hop
      have hl2 := Order.links_eq hl2
      have hnt : L.tail ≠ some p := by
        intro ht
        obtain ⟨_, op', hop', _, hnn⟩ := htail p ht
        rw [hop] at hop'
        cases hop'
        rw [hnp] at hnn
        cases hnn
      refine ⟨o2, ho2, ?_, by rw [hl2.2.2.2.2.2, hl.2.2.2.2.2]; exact hlp⟩
      rw [hl2.2.2.2.2.1]
      simp only [hnt, if_false]
      exact hnp
  · intro x o1 lp hx hlp
    by_cases hxa : x = a
    · subst hxa
      obtain ⟨o1', ho1', hl⟩ := hnew
      rw [hx] at ho1'
      cases ho1'
      have hl := Order.links_eq hl
      rw [hl.2.2.2.2.2, ho.2.2.2.2] at hlp
      cases hlp
      refine ⟨hnl.1, ?_⟩
      intro s1 k1 L1 h1 hs
      rcases hlad s1 k1 L1 h1 with ⟨L0, _, hne, hq⟩ | ⟨hs1, hk1, _, _, _, _⟩
      · exact absurd (by rw [← hq.1, hs]) hne
      · exact ⟨by rw [hl.2.1, ho.1, hs1], by rw [hl.2.2.1, ho.2.1, hk1]⟩
    · obtain ⟨ox, hox, hl⟩ := hbwd x o1 hx hxa
      have hl := Order.links_eq hl
      rw [hl.2.2.2.2.2] at hlp
      have hpl := hI.place_ok x ox lp hox hlp
      refine ⟨lt_of_lt_of_le hpl.1 hnl.2, ?_⟩
      intro s1 k1 L1 h1 hs
      rcases hlad s1 k1 L1 h1 with ⟨L0, hL0, _, hq⟩ | ⟨hs1, hk1, hself, _, _, _⟩
      · have := hpl.2 s1 k1 L0 hL0 (by rw [← hq.1, hs])
        exact ⟨by rw [hl.2.1]; exact this.1, by rw [hl.2.2.1]; exact this.2⟩
      · rcases hL with hL | hL
        · have := hpl.2 s k L hL (by rw [← hself, hs])
          exact ⟨by rw [hl.2.1, hs1]; exact this.1, by rw [hl.2.2.1, hk1]; exact this.2⟩
        · have h1 := hpl.1
          rw [← hs, hself, hL.1] at h1
          exact absurd h1 (lt_irrefl _)
  · intro x o1 hx
    by_cases hxa : x = a
    · rw [hxa]; exact hno.1
    · obtain ⟨ox, hox, _⟩ := hbwd x o1 hx hxa
      exact lt_of_lt_of_le (hI.heap_fresh x ox hox) hno.2
  · intro i c hc
    rcases hix i c hc with hc | ⟨hca, hi⟩
    · obtain ⟨oc, hoc, hid⟩ := hI.index_ok i c hc
      obtain ⟨_, o1, ho1, hl⟩ := hfwd c oc hoc
      have hl := Order.links_eq hl
      exact ⟨o1, ho1, by rw [hl.1]; exact hid⟩
    · obtain ⟨o1, ho1, hl⟩ := hnew
      have hl := Order.links_eq hl
      exact ⟨o1, by rw [hca]; exact ho1, by rw [hl.1, hi]⟩

theorem AL.mem_modify {κ ν : Type} [DecidableEq κ] (l : List (κ × ν)) (k : κ) (f : ν → ν)
    (k1 : κ) (v1 : ν) :
    (k1, v1) ∈ AL.modify l k f ↔ ∃ v0, (k1, v0) ∈ l ∧ v1 = if k1 = k then f v0 else v0 := by
  simp only [AL.modify, List.mem_map, Prod.exists]
  constructor
  · rintro ⟨k0, v0, hm, he⟩
    by_cases hk : k0 = k
    · rw [if_pos hk] at he
      obtain ⟨rfl, rfl⟩ := Prod.mk.inj he
      exact ⟨v0, hm, by rw [if_pos hk]⟩
    · rw [if_neg hk] at he
      obtain ⟨rfl, rfl⟩ := Prod.mk.inj he
      exact ⟨v0, hm, by rw [if_neg hk]⟩
  · rintro ⟨v0, hm, he⟩
    refine ⟨k1, v0, hm, ?_⟩
    by_cases hk : k1 = k
    · rw [if_pos hk] at he ⊢
      rw [he]
    · rw [if_neg hk] at he ⊢
      rw [he]

theorem Ladder.modify_sorted (s : Side) (l : Ladder) (k : Price) (f : PriceLevel → PriceLevel)
    (hs : l.Pairwise (fun x y => key_before s x.1 y.1 = true)) :
    (AL.modify l k f).Pairwise (fun x y => key_before s x.1 y.1 = true) := by
  simp only [AL.modify]
  rw [List.pairwise_map]
  refine hs.imp ?_
  intro x y hxy
  have e : ∀ z : Price × PriceLevel, (if z.1 = k then (z.1, f z.2) else z).1 = z.1 := by
    intro z
    split <;> rfl
  rw [e x, e y]
  exact hxy

theorem Index.find_emplace (ix : Index) (id : OrderId) (o : OrderPtr) (i : OrderId) :
    AL.find (Index.emplace ix id o) i =
      if i = id then (match AL.find ix id with
        | some c => some c
        | none => some o) else AL.find ix i := by
  unfold Index.emplace
  cases h : AL.find ix id with
  | some c =>
    simp only
    split
    · rename_i hi
      rw [hi, h]
    · rfl
  | none =>
    simp only
    rw [AL.find_cons]
    by_cases hi : i = id
    · rw [if_pos hi, if_pos hi.symm]
    · rw [if_neg hi, if_neg (fun h => hi h.symm)]

theorem PriceLevel.push_back_spec (lvl : PriceLevel) (h : Heap) (o : OrderPtr) (ord : Order)
    (ho : AL.find h o = some ord)
    (ht : ∀ t, lvl.tail = some t → ∃ ot, AL.find h t = some ot) :
    ∃ h1, PriceLevel.push_back lvl h o =
        .ok ({ lvl with tail := some o, total_qty := wrap64 (lvl.total_qty + ord.qty) }, h1) ∧
      ∀ x, AL.find h1 x = (AL.find h x).map (fun ox =>
        { ox with
          prev := if x = o then lvl.tail else ox.prev
          next := if lvl.tail = some x then some o else if x = o then none else ox.next
          level := if x = o then some lvl.self else ox.level }) := by
  unfold PriceLevel.push_back
  simp only [ho]
  rcases htl : lvl.tail with _ | t
  · refine ⟨_, rfl, ?_⟩
    intro x
    rw [AL.find_modify]
    by_cases hx : x = o
    · subst hx
      rw [if_pos rfl, ho]
      simp
    · rw [if_neg hx]
      cases AL.find h x <;> simp [hx]
  · obtain ⟨ot, hot⟩ := ht t htl
    have h1t : ∃ ot1, AL.find (AL.modify h o (fun x =>
        { x with prev := some t, next := none, level := some lvl.self })) t = some ot1 := by
      rw [AL.find_modify]
      split
      · rw [ho]
        exact ⟨_, rfl⟩
      · exact ⟨ot, hot⟩
    obtain ⟨ot1, hot1⟩ := h1t
    simp only [hot1]
    refine ⟨_, rfl, ?_⟩
    intro x
    rw [AL.find_modify, AL.find_modify]
    by_cases hxt : x = t
    · subst hxt
      rw [if_pos rfl]
      by_cases hx : x = o
      · subst hx
        rw [if_pos rfl, ho]
        simp
      · rw [if_neg hx, hot]
        simp [hx]
    · rw [if_neg hxt, AL.find_modify]
      have : ¬ t = x := fun h => hxt h.symm
      by_cases hx : x = o
      · subst hx
        rw [if_pos rfl, ho]
        simp [this]
      · rw [if_neg hx]
        cases AL.find h x <;> simp [hx, this]

theorem get_or_create_level_spec (b : Book) (side : Side) (px : Price)
    (hs : (b.ladder side).Pairwise (fun x y => key_before side x.1 y.1 = true)) :
    ∃ b2 lvl, get_or_create_level b side px = (b2, lvl) ∧
      b2.heap = b.heap ∧ b2.order_index_ = b.order_index_ ∧ b2.next_order = b.next_order ∧
      b2.ladder (opposite side) = b.ladder (opposite side) ∧
      AL.find (b2.ladder side) px = some lvl ∧
      (b2.ladder side).Pairwise (fun x y => key_before side x.1 y.1 = true) ∧
      (∀ p, p ≠ px → AL.find (b2.ladder side) p = AL.find (b.ladder side) p) ∧
      (∀ e, e ∈ b2.ladder side ↔ e = (px, lvl) ∨ e ∈ b.ladder side) ∧
      depth_at b side px = lvl.total_qty ∧
      (((px, lvl) ∈ b.ladder side ∧ b2.next_level = b.next_level) ∨
        (AL.find (b.ladder side) px = none ∧ lvl.self = b.next_level ∧ lvl.price = px ∧
          lvl.head = none ∧ lvl.tail = none ∧ b2.next_level = b.next_level + 1)) := by
  unfold get_or_create_level
  cases hf : AL.find (b.ladder side) px with
  | some lvl =>
    have hm := AL.find_mem _ _ _ hf
    refine ⟨b, lvl, rfl, rfl, rfl, rfl, rfl, hf, hs, fun _ _ => rfl, ?_, ?_, Or.inl ⟨hm, rfl⟩⟩
    · intro e
      constructor
      · exact Or.inr
      · rintro (rfl | h)
        · exact hm
        · exact h
    · simp [depth_at, hf]
  | none =>
    refine ⟨_, _, rfl, ?_, ?_, ?_, ?_, ?_, ?_, ?_, ?_, ?_, Or.inr ⟨rfl, rfl, rfl, rfl, rfl, rfl⟩⟩
    · cases side <;> rfl
    · cases side <;> rfl
    · cases side <;> rfl
    · cases side <;> rfl
    · have : ∀ l : Ladder, ({ b.set_ladder side l with next_level := b.next_level + 1 } : Book).ladder
          side = l := by
        intro l
        cases side <;> rfl
      rw [this, Ladder.find_insert side _ px _ hf, if_pos rfl]
    · have : ∀ l : Ladder, ({ b.set_ladder side l with next_level := b.next_level + 1 } : Book).ladder
          side = l := by
        intro l
        cases side <;> rfl
      rw [this]
      exact Ladder.insert_sorted side _ px _ hs hf
    · intro p hp
      have : ∀ l : Ladder, ({ b.set_ladder side l with next_level := b.next_level + 1 } : Book).ladder
          side = l := by
        intro l
        cases side <;> rfl
      rw [this, Ladder.find_insert side _ px _ hf, if_neg hp]
    · intro e
      have : ∀ l : Ladder, ({ b.set_ladder side l with next_level := b.next_level + 1 } : Book).ladder
          side = l := by
        intro l
        cases side <;> rfl
      rw [this]
      exact Ladder.mem_insert side _ px _ e
    · simp [depth_at, hf]

theorem create_order_spec (b : Book) (id : OrderId) (side : Side) (px : Price) (qty : Qty)
    (ts : TimeNs) :
    ∃ cb ord, create_order b id side px qty ts = (cb, b.next_order) ∧
      cb.heap = (b.next_order, ord) :: b.heap ∧ cb.order_index_ = b.order_index_ ∧
      cb.next_order = b.next_order + 1 ∧ cb.next_level = b.next_level ∧
      (∀ s, cb.ladder s = b.ladder s) ∧
      ord.id = id ∧ ord.side = side ∧ ord.px = px ∧ ord.qty = qty ∧ ord.ts = ts ∧
      ord.prev = none ∧ ord.next = none ∧ ord.level = none :=
  ⟨_, _, rfl, rfl, rfl, rfl, rfl, fun s => by cases s <;> rfl, rfl, rfl, rfl, rfl, rfl, rfl, rfl,
    rfl⟩

theorem rest_book_fields (b2 : Book) (h1 : Heap) (side : Side) (l : Ladder) (id : OrderId)
    (o : OrderPtr) :
    (index_insert ({ b2 with heap := h1 }.set_ladder side l) id o).heap = h1 ∧
    (index_insert ({ b2 with heap := h1 }.set_ladder side l) id o).order_index_ =
      Index.emplace b2.order_index_ id o ∧
    (index_insert ({ b2 with heap := h1 }.set_ladder side l) id o).next_order = b2.next_order ∧
    (index_insert ({ b2 with heap := h1 }.set_ladder side l) id o).next_level = b2.next_level ∧
    (index_insert ({ b2 with heap := h1 }.set_ladder side l) id o).ladder side = l ∧
    (index_insert ({ b2 with heap := h1 }.set_ladder side l) id o).ladder (opposite side) =
      b2.ladder (opposite side) := by
  cases side <;> exact ⟨rfl, rfl, rfl, rfl, rfl, rfl⟩

theorem side_cases (side s1 : Side) : s1 = side ∨ s1 = opposite side := by
  cases side <;> cases s1 <;> simp [opposite]

theorem rest_order_spec (b : Book) (hI : Inv b) (id : OrderId) (side : Side) (px : Price)
    (qty : Qty) (ts : TimeNs) :
    ∃ b1, rest_order b id side px qty ts = .ok b1 ∧ Inv b1 ∧ Rested b id side px qty ts b1 := by
  have hfresh : AL.find b.heap b.next_order = none := by
    cases hf : AL.find b.heap b.next_order with
    | none => rfl
    | some o => exact absurd (hI.heap_fresh _ o hf) (lt_irrefl _)
  obtain ⟨cb, ord, hcb, hcheap, hcix, hcno, hcnl, hclad, hoid, hoside, hopx, hoqty, hots, hoprev,
    honext, holevel⟩ := create_order_spec b id side px qty ts
  obtain ⟨b2, lvl, hgc, hheap2, hix2, hno2, hopp2, hfind2, hsort2, helse2, hmem2, hdepth2, hcase2⟩ :=
    get_or_create_level_spec cb side px (by rw [hclad]; exact hI.sorted side)
  rw [hclad] at hopp2 hmem2 hcase2
  simp only [hclad] at helse2
  have hdepth : depth_at b side px = lvl.total_qty := by
    rw [← hdepth2]
    simp only [depth_at, hclad]
  have hho : AL.find b2.heap b.next_order = some ord := by
    rw [hheap2, hcheap, AL.find_cons, if_pos rfl]
  have htlive : ∀ t, lvl.tail = some t → ∃ ot, AL.find b.heap t = some ot ∧
      (px, lvl) ∈ b.ladder side := by
    intro t ht
    rcases hcase2 with ⟨hm, _⟩ | ⟨_, _, _, _, hn, _⟩
    · obtain ⟨ot, hot, _, _⟩ := hI.tail_ok side px lvl t hm ht
      exact ⟨ot, hot, hm⟩
    · rw [hn] at ht
      cases ht
  obtain ⟨h1, hpb, hh1⟩ := PriceLevel.push_back_spec lvl b2.heap b.next_order _ hho
    (by
      intro t ht
      obtain ⟨ot, hot, _⟩ := htlive t ht
      rw [hheap2, hcheap, AL.find_cons]
      split
      · exact ⟨_, rfl⟩
      · exact ⟨ot, hot⟩)
  unfold rest_order
  simp only [hcb, hgc, hpb]
  obtain ⟨fheap, fix, fno, fnl, fown, fopp⟩ := rest_book_fields b2 h1 side
    (AL.modify (b2.ladder side) px
      (fun _ => { lvl with tail := some b.next_order, total_qty := wrap64 (lvl.total_qty + ord.qty) }))
    id b.next_order
  have hnt : lvl.tail ≠ some b.next_order := by
    intro ht
    obtain ⟨ot, hot, _⟩ := htlive _ ht
    rw [hfresh] at hot
    cases hot
  refine ⟨_, rfl, ?_, ?_⟩
  · obtain ⟨o1, ho1⟩ : ∃ o1 : Order,
        o1 = { ord with prev := lvl.tail, next := none, level := some lvl.self } := ⟨_, rfl⟩
    have ho : o1.side = side ∧ o1.px = px ∧ o1.prev = lvl.tail ∧ o1.next = none ∧
        o1.level = some lvl.self := by
      rw [ho1]
      exact ⟨hoside, hopx, rfl, rfl, rfl⟩
    have hLcase : (px, lvl) ∈ b.ladder side ∨
        (lvl.self = b.next_level ∧ lvl.head = none ∧ lvl.tail = none) := by
      rcases hcase2 with ⟨hm, _⟩ | ⟨_, hs, _, hh, ht, _⟩
      · exact Or.inl hm
      · exact Or.inr ⟨by rw [hs, hcnl], hh, ht⟩
    have hother : ∀ k1 L1, (k1, L1) ∈ b.ladder side → k1 ≠ px → L1.self ≠ lvl.self := by
      intro k1 L1 hm hk he
      rcases hcase2 with ⟨hm2, _⟩ | ⟨_, hs, _, _, _, _⟩
      · exact hk (hI.self_inj side k1 L1 side px lvl hm hm2 he).2
      · have := (hI.level_ok side k1 L1 hm).2
        rw [he, hs, hcnl] at this
        exact absurd this (lt_irrefl _)
    have hopplvl : ∀ k1 L1, (k1, L1) ∈ b.ladder (opposite side) → L1.self ≠ lvl.self := by
      intro k1 L1 hm he
      rcases hcase2 with ⟨hm2, _⟩ | ⟨_, hs, _, _, _, _⟩
      · exact opposite_ne' side (hI.self_inj _ k1 L1 side px lvl hm hm2 he).1
      · have := (hI.level_ok _ k1 L1 hm).2
        rw [he, hs, hcnl] at this
        exact absurd this (lt_irrefl _)
    refine Inv.push hI hfresh hLcase ho ?_ ?_ ?_ ?_ ?_ ?_
    · intro s1
      rcases side_cases side s1 with rfl | rfl
      · rw [fown]
        exact Ladder.modify_sorted _ _ _ _ hsort2
      · rw [fopp, hopp2]
        exact hI.sorted _
    · intro s1 k1 L1 hm
      rcases side_cases side s1 with rfl | rfl
      · rw [fown, AL.mem_modify] at hm
        obtain ⟨L0, hL0, he⟩ := hm
        by_cases hk : k1 = px
        · right
          rw [if_pos hk] at he
          subst he
          have hp : lvl.price = px := by
            rcases hcase2 with ⟨hm2, _⟩ | ⟨_, _, hp, _, _, _⟩
            · exact (hI.level_ok _ px lvl hm2).1
            · exact hp
          exact ⟨rfl, hk, rfl, hp, rfl, rfl⟩
        · left
          rw [if_neg hk] at he
          subst he
          rcases (hmem2 _).1 hL0 with he | hm0
          · exact absurd (Prod.mk.inj he).1 hk
          · exact ⟨L1, hm0, hother k1 L1 hm0 hk, rfl, rfl, rfl, rfl⟩
      · left
        rw [fopp, hopp2] at hm
        exact ⟨L1, hm, hopplvl k1 L1 hm, rfl, rfl, rfl, rfl⟩
    · intro x
      rw [fheap, hh1 x, hheap2, hcheap, AL.find_cons]
      by_cases hx : x = b.next_order
      · subst hx
        rw [if_pos rfl, if_pos rfl, ho1]
        simp [Order.links, hnt]
      · rw [if_neg (fun h => hx h.symm), if_neg hx]
        cases AL.find b.heap x <;> simp [Order.links, hx]
    · intro i c hc
      rw [fix, Index.find_emplace, hix2, hcix] at hc
      split at hc
      · rename_i hi
        cases hfi : AL.find b.order_index_ id with
        | none =>
          rw [hfi] at hc
          simp only [Option.some.injEq] at hc
          right
          rw [ho1]
          exact ⟨hc.symm, by rw [hi]; exact hoid.symm⟩
        | some c0 =>
          rw [hfi] at hc
          left
          rw [hi, hfi]
          exact hc
      · exact Or.inl hc
    · rw [fno, hno2, hcno]
      exact ⟨Nat.lt_succ_self _, Nat.le_succ _⟩
    · rw [fnl]
      rcases hcase2 with ⟨hm2, hn⟩ | ⟨_, hs, _, _, _, hn⟩
      · rw [hn, hcnl]
        exact ⟨(hI.level_ok _ px lvl hm2).2, le_refl _⟩
      · rw [hn, hcnl, hs, hcnl]
        exact ⟨Nat.lt_succ_self _, Nat.le_succ _⟩
  · refine ⟨?_, ?_, ?_, ?_, ?_, ?_⟩
    · rw [fopp, hopp2]
    · simp only [depth_at]
      rw [fown, AL.find_modify, if_pos rfl, hfind2]
      simp only [Option.map_some']
      rw [← hdepth] 
      simp only [depth_at, hoqty]
    · intro p hp
      rw [fown, AL.find_modify, if_neg hp]
      exact helse2 p hp
    · intro k1
      rw [fown]
      constructor
      · rintro ⟨L1, hm⟩
        rw [AL.mem_modify] at hm
        obtain ⟨L0, hL0, _⟩ := hm
        rcases (hmem2 _).1 hL0 with he | hm0
        · exact Or.inl (Prod.mk.inj he).1
        · exact Or.inr ⟨L0, hm0⟩
      · rintro (hk | ⟨L, hm⟩)
        · refine ⟨_, (AL.mem_modify _ _ _ _ _).2 ⟨lvl, ?_, rfl⟩⟩
          rw [hk]
          exact (hmem2 _).2 (Or.inl rfl)
        · exact ⟨_, (AL.mem_modify _ _ _ _ _).2 ⟨L, (hmem2 _).2 (Or.inr hm), rfl⟩⟩
    · intro i
      rw [fix, Index.find_emplace, hix2, hcix]
    · have hfa : AL.find h1 b.next_order =
          some { ord with prev := lvl.tail, next := none, level := some lvl.self } := by
        rw [hh1, hheap2, hcheap, AL.find_cons, if_pos rfl]
        simp [hnt]
      refine ⟨{ ord with prev := lvl.tail, next := none, level := some lvl.self },
        { lvl with tail := some b.next_order, total_qty := wrap64 (lvl.total_qty + ord.qty) },
        by rw [fheap]; exact hfa, hoid, hoside, hopx, hoqty, hots, rfl, rfl, ?_, rfl⟩
      rw [fown, AL.find_modify, if_pos rfl, hfind2]
      rfl

/-! ## `add_limit` and `add_market` -/

theorem add_limit_eq (b : Book) (id : OrderId) (side : Side) (px : Price) (qty : Qty)
    (ts : TimeNs) :
    add_limit b id side px qty ts =
      if qty ≤ 0 then .ok (b, [])
      else
        match match_against side px ts ((b.ladder (opposite side)).length + 2) b qty [] with
        | .error e => .error e
        | .ok (b1, qty1, trades) =>
          if qty1 > 0 then
            match rest_order b1 id side px qty1 ts with
            | .error e => .error e
            | .ok b2 => .ok (b2, trades)
          else .ok (b1, trades) := by
  cases side <;> rfl

theorem add_market_eq (b : Book) (id : OrderId) (side : Side) (qty : Qty) (ts : TimeNs) :
    add_market b id side qty ts =
      if qty ≤ 0 then .ok (b, [])
      else
        match match_against side (match side with | .BUY => PRICE_MAX | .SELL => PRICE_MIN) ts
            ((b.ladder (opposite side)).length + 2) b qty [] with
        | .error e => .error e
        | .ok (b1, _, trades) => .ok (b1, trades) := by
  cases side <;> rfl

/-- On a book satisfying the invariant `add_limit` with a positive quantity returns: it
runs the matching routine and rests the remainder when one is left. -/
theorem add_limit_spec (b : Book) (hI : Inv b) (id : OrderId) (side : Side) (px : Price)
    (qty : Qty) (ts : TimeNs) (hq : 0 < qty) :
    ∃ b1 tq1 made, Inv b1 ∧ MatchRun side px ts b qty b1 tq1 made ∧
      ((0 < tq1 ∧ ∃ b2, add_limit b id side px qty ts = .ok (b2, made) ∧ Inv b2 ∧
          Rested b1 id side px tq1 ts b2) ∨
        (tq1 ≤ 0 ∧ add_limit b id side px qty ts = .ok (b1, made))) := by
  obtain ⟨b1, tq1, made, heq, hI1, hrun⟩ := match_against_spec side px ts
    ((b.ladder (opposite side)).length + 2) b qty [] hI (Nat.le_add_left _ _)
    (fun _ => Nat.lt_succ_self _)
  rw [List.nil_append] at heq
  refine ⟨b1, tq1, made, hI1, hrun, ?_⟩
  rw [add_limit_eq, if_neg (not_le.2 hq), heq]
  simp only
  by_cases ht : 0 < tq1
  · left
    obtain ⟨b2, hr, hI2, hrest⟩ := rest_order_spec b1 hI1 id side px tq1 ts
    refine ⟨ht, b2, ?_, hI2, hrest⟩
    rw [if_pos ht, hr]
  · right
    exact ⟨not_lt.1 ht, by rw [if_neg ht]⟩

theorem add_limit_inv (b : Book) (hI : Inv b) (id : OrderId) (side : Side) (px : Price)
    (qty : Qty) (ts : TimeNs) (b1 : Book) (trades : List Trade)
    (h : add_limit b id side px qty ts = .ok (b1, trades)) : Inv b1 := by
  by_cases hq : 0 < qty
  · obtain ⟨b2, tq1, made, hI2, _, hc⟩ := add_limit_spec b hI id side px qty ts hq
    rcases hc with ⟨_, b3, he, hI3, _⟩ | ⟨_, he⟩
    · rw [he] at h
      cases h
      exact hI3
    · rw [he] at h
      cases h
      exact hI2
  · rw [add_limit_eq, if_pos (not_lt.1 hq)] at h
    cases h
    exact hI

theorem add_market_spec (b : Book) (hI : Inv b) (id : OrderId) (side : Side) (qty : Qty)
    (ts : TimeNs) (hq : 0 < qty) :
    ∃ b1 tq1 made, add_market b id side qty ts = .ok (b1, made) ∧ Inv b1 ∧
      MatchRun side (match side with | .BUY => PRICE_MAX | .SELL => PRICE_MIN) ts b qty b1 tq1
        made := by
  obtain ⟨b1, tq1, made, heq, hI1, hrun⟩ := match_against_spec side
    (match side with | .BUY => PRICE_MAX | .SELL => PRICE_MIN) ts
    ((b.ladder (opposite side)).length + 2) b qty [] hI (Nat.le_add_left _ _)
    (fun _ => Nat.lt_succ_self _)
  rw [List.nil_append] at heq
  refine ⟨b1, tq1, made, ?_, hI1, hrun⟩
  rw [add_market_eq, if_neg (not_le.2 hq), heq]

theorem add_market_inv (b : Book) (hI : Inv b) (id : OrderId) (side : Side) (qty : Qty)
    (ts : TimeNs) (b1 : Book) (trades : List Trade)
    (h : add_market b id side qty ts = .ok (b1, trades)) : Inv b1 := by
  by_cases hq : 0 < qty
  · obtain ⟨b2, tq1, made, he, hI2, _⟩ := add_market_spec b hI id side qty ts hq
    rw [he] at h
    cases h
    exact hI2
  · rw [add_market_eq, if_pos (not_lt.1 hq)] at h
    cases h
    exact hI

/-! ## `cancel` and `replace` -/

theorem Book.level_at_mem (b : Book) (lp : LevelPtr) (lvl : PriceLevel)
    (h : b.level_at lp = some lvl) : lvl.self = lp ∧ ∃ s k, (k, lvl) ∈ b.ladder s := by
  unfold Book.level_at at h
  cases h1 : b.buy_.find? (fun e => decide (e.2.self = lp)) with
  | some e =>
    rw [h1] at h
    simp only [Option.some.injEq] at h
    subst h
    have hp := List.find?_some h1
    have hm := List.mem_of_find?_eq_some h1
    exact ⟨by simpa using hp, .BUY, e.1, hm⟩
  | none =>
    rw [h1] at h
    simp only at h
    cases h2 : b.sell_.find? (fun e => decide (e.2.self = lp)) with
    | some e =>
      rw [h2] at h
      simp only [Option.some.injEq] at h
      subst h
      have hp := List.find?_some h2
      have hm := List.mem_of_find?_eq_some h2
      exact ⟨by simpa using hp, .SELL, e.1, hm⟩
    | none =>
      rw [h2] at h
      cases h

theorem Book.mem_level_at (b : Book) (hI : Inv b) (s : Side) (k : Price) (lvl : PriceLevel)
    (hm : (k, lvl) ∈ b.ladder s) : b.level_at lvl.self = some lvl := by
  cases h : b.level_at lvl.self with
  | none =>
    unfold Book.level_at at h
    cases h1 : b.buy_.find? (fun e => decide (e.2.self = lvl.self)) with
    | some e => rw [h1] at h; cases h
    | none =>
      rw [h1] at h
      simp only at h
      cases h2 : b.sell_.find? (fun e => decide (e.2.self = lvl.self)) with
      | some e => rw [h2] at h; cases h
      | none =>
        cases s
        · have := List.find?_eq_none.1 h1 _ hm
          simp at this
        · have := List.find?_eq_none.1 h2 _ hm
          simp at this
  | some L =>
    obtain ⟨hs, s1, k1, hm1⟩ := Book.level_at_mem b _ L h
    obtain ⟨rfl, rfl⟩ := hI.self_inj s1 k1 L s k lvl hm1 hm hs
    rw [Ladder.mem_unique s1 _ (hI.sorted s1) k1 L lvl hm1 hm]

theorem Book.store_level_ladder (b : Book) (lp : LevelPtr) (L1 : PriceLevel) (s : Side) :
    (b.store_level lp L1).ladder s =
      (b.ladder s).map (fun e => if e.2.self = lp then (e.1, L1) else e) := by
  cases s <;> rfl

theorem store_level_sorted (s : Side) (l : Ladder) (lp : LevelPtr) (L1 : PriceLevel)
    (hs : l.Pairwise (fun x y => key_before s x.1 y.1 = true)) :
    (l.map (fun e => if e.2.self = lp then (e.1, L1) else e)).Pairwise
      (fun x y => key_before s x.1 y.1 = true) := by
  rw [List.pairwise_map]
  refine hs.imp ?_
  intro x y hxy
  have e : ∀ z : Price × PriceLevel, (if z.2.self = lp then (z.1, L1) else z).1 = z.1 := by
    intro z
    split <;> rfl
  rw [e x, e y]
  exact hxy

theorem store_level_mem (l : Ladder) (lp : LevelPtr) (L1 : PriceLevel) (k1 : Price)
    (L2 : PriceLevel)
    (hm : (k1, L2) ∈ l.map (fun e => if e.2.self = lp then (e.1, L1) else e)) :
    ∃ L0, (k1, L0) ∈ l ∧ L2 = if L0.self = lp then L1 else L0 := by
  rw [List.mem_map] at hm
  obtain ⟨e, he, heq⟩ := hm
  obtain ⟨k0, L0⟩ := e
  by_cases hs : L0.self = lp
  · simp only [hs, if_true] at heq
    obtain ⟨rfl, rfl⟩ := Prod.mk.inj heq
    exact ⟨L0, he, by rw [if_pos hs]⟩
  · simp only [hs, if_false] at heq
    obtain ⟨rfl, rfl⟩ := Prod.mk.inj heq
    exact ⟨L0, he, by rw [if_neg hs]⟩

theorem erase_level_if_empty_inv (b : Book) (hI : Inv b) (side : Side) (px : Price) :
    Inv (erase_level_if_empty b side px) := by
  unfold erase_level_if_empty
  split
  · split
    · refine Inv.weaken hI ?_ ?_ (fun x => ?_) (fun i c hc => ?_) ?_ ?_
      · intro s1
        rw [Book.set_ladder_ladder]
        split
        · rename_i hs
          subst hs
          exact (hI.sorted s1).sublist (AL.erase_sublist _ _)
        · exact hI.sorted s1
      · intro s1 k1 L1 hm
        rw [Book.set_ladder_ladder] at hm
        refine ⟨L1, ?_, rfl, rfl, rfl, rfl⟩
        split at hm
        · rename_i hs
          subst hs
          exact (AL.erase_sublist _ _).subset hm
        · exact hm
      · cases side <;> rfl
      · cases side <;> exact hc
      · cases side <;> exact le_refl _
      · cases side <;> exact le_refl _
    · exact hI
  · exact hI

/-- On a book satisfying the invariant, `cancel` of an indexed order whose level is still
in its ladder returns true. -/
theorem cancel_spec (b : Book) (hI : Inv b) (id : OrderId) (o : OrderPtr) (ord : Order)
    (lp : LevelPtr) (lvl : PriceLevel) (hix : AL.find b.order_index_ id = some o)
    (ho : AL.find b.heap o = some ord) (hlv : ord.level = some lp)
    (hat : b.level_at lp = some lvl) :
    ∃ b1, cancel b id = .ok (b1, true) ∧ Inv b1 := by
  obtain ⟨hself, s, k, hm⟩ := Book.level_at_mem b lp lvl hat
  obtain ⟨h1, hrem, hh1⟩ := PriceLevel.remove_spec lvl b.heap o ord ho
    (fun p hp => by
      obtain ⟨op, hop, _⟩ := hI.prev_ok o ord p ho hp
      exact ⟨op, hop⟩)
    (fun n hn => by
      obtain ⟨nx, hnx, _⟩ := hI.next_ok o ord n ho hn
      exact ⟨nx, hnx⟩)
  have hIu : Inv (destroy_order (index_erase
      ({ b with heap := h1 }.store_level lp (unlinked lvl ord)) ord.id) o) := by
    refine Inv.unlink hI ho (by rw [hlv, hself]) hm ?_ ?_ ?_ ?_ (le_refl _) (le_refl _)
    · intro s1
      have : (destroy_order (index_erase
          ({ b with heap := h1 }.store_level lp (unlinked lvl ord)) ord.id) o).ladder s1 =
          (b.ladder s1).map (fun e => if e.2.self = lp then (e.1, unlinked lvl ord) else e) := by
        cases s1 <;> rfl
      rw [this]
      exact store_level_sorted s1 _ lp _ (hI.sorted s1)
    · intro s1 k1 L1 hm1
      have : (destroy_order (index_erase
          ({ b with heap := h1 }.store_level lp (unlinked lvl ord)) ord.id) o).ladder s1 =
          (b.ladder s1).map (fun e => if e.2.self = lp then (e.1, unlinked lvl ord) else e) := by
        cases s1 <;> rfl
      rw [this] at hm1
      obtain ⟨L0, hL0, he⟩ := store_level_mem _ lp _ k1 L1 hm1
      refine ⟨L0, hL0, ?_⟩
      rw [hself]
      by_cases hs : L0.self = lp
      · rw [if_pos hs] at he ⊢
        have h0 : L0 = lvl := by
          obtain ⟨rfl, rfl⟩ := hI.self_inj s1 k1 L0 s k lvl hL0 hm (by rw [hs, hself])
          exact Ladder.mem_unique s1 _ (hI.sorted s1) k1 L0 lvl hL0 hm
        rw [he, h0]
        exact ⟨rfl, rfl, rfl, rfl⟩
      · rw [if_neg hs] at he ⊢
        rw [he]
        exact ⟨rfl, rfl, rfl, rfl⟩
    · intro x
      have : (destroy_order (index_erase
          ({ b with heap := h1 }.store_level lp (unlinked lvl ord)) ord.id) o).heap =
          AL.erase h1 o := rfl
      rw [this, AL.find_erase]
      split
      · rfl
      · rename_i hx
        rw [hh1 x hx]
        cases AL.find b.heap x <;> rfl
    · intro i c hc
      have : (destroy_order (index_erase
          ({ b with heap := h1 }.store_level lp (unlinked lvl ord)) ord.id) o).order_index_ =
          AL.erase b.order_index_ ord.id := rfl
      rw [this, AL.find_erase] at hc
      split at hc
      · cases hc
      · rename_i hi
        exact ⟨hi, hc⟩
  unfold cancel
  simp only [hix, ho, hlv, hat, hrem]
  split
  · exact ⟨_, rfl, erase_level_if_empty_inv _ hIu _ _⟩
  · exact ⟨_, rfl, hIu⟩

theorem cancel_inv (b : Book) (hI : Inv b) (id : OrderId) (b1 : Book) (r : Bool)
    (h : cancel b id = .ok (b1, r)) : Inv b1 := by
  cases hix : AL.find b.order_index_ id with
  | none =>
    simp only [cancel, hix] at h
    cases h
    exact hI
  | some o =>
    cases ho : AL.find b.heap o with
    | none => simp [cancel, hix, ho] at h
    | some ord =>
      cases hlv : ord.level with
      | none => simp [cancel, hix, ho, hlv] at h
      | some lp =>
        cases hat : b.level_at lp with
        | none => simp [cancel, hix, ho, hlv, hat] at h
        | some lvl =>
          obtain ⟨b2, he, hI2⟩ := cancel_spec b hI id o ord lp lvl hix ho hlv hat
          rw [he] at h
          cases h
          exact hI2

theorem shrink_inv (b : Book) (hI : Inv b) (o : OrderPtr) (nq : Qty) (lp : LevelPtr)
    (lvl : PriceLevel) (hat : b.level_at lp = some lvl) (t : Qty) :
    Inv ({ b with heap := AL.modify b.heap o (fun x => { x with qty := nq }) }.store_level lp
      { lvl with total_qty := t }) := by
  obtain ⟨hself, s, k, hm⟩ := Book.level_at_mem b lp lvl hat
  refine Inv.weaken hI ?_ ?_ ?_ (fun i c hc => hc) (le_refl _) (le_refl _)
  · intro s1
    rw [Book.store_level_ladder]
    have : ({ b with heap := AL.modify b.heap o (fun x => { x with qty := nq }) } : Book).ladder s1 =
        b.ladder s1 := by
      cases s1 <;> rfl
    rw [this]
    exact store_level_sorted s1 _ lp _ (hI.sorted s1)
  · intro s1 k1 L1 hm1
    rw [Book.store_level_ladder] at hm1
    have : ({ b with heap := AL.modify b.heap o (fun x => { x with qty := nq }) } : Book).ladder s1 =
        b.ladder s1 := by
      cases s1 <;> rfl
    rw [this] at hm1
    obtain ⟨L0, hL0, he⟩ := store_level_mem _ lp _ k1 L1 hm1
    refine ⟨L0, hL0, ?_⟩
    by_cases hs : L0.self = lp
    · rw [if_pos hs] at he
      have h0 : L0 = lvl := by
        obtain ⟨rfl, rfl⟩ := hI.self_inj s1 k1 L0 s k lvl hL0 hm (by rw [hs, hself])
        exact Ladder.mem_unique s1 _ (hI.sorted s1) k1 L0 lvl hL0 hm
      rw [he, h0]
      exact ⟨rfl, rfl, rfl, rfl⟩
    · rw [if_neg hs] at he
      rw [he]
      exact ⟨rfl, rfl, rfl, rfl⟩
  · intro x
    have : ({ b with heap := AL.modify b.heap o (fun x => { x with qty := nq }) }.store_level lp
        { lvl with total_qty := t }).heap = AL.modify b.heap o (fun x => { x with qty := nq }) := rfl
    rw [this, AL.find_modify]
    split
    · rename_i hx
      subst hx
      cases AL.find b.heap x <;> rfl
    · rfl

theorem cancel_then_add_inv (trades : Bool) (b : Book) (hI : Inv b) (id : OrderId) (s : Side)
    (px : Price) (q : Qty) (ts : TimeNs) (b1 : Book) (r : Bool)
    (h : (match cancel b id with
      | .error e => .error e
      | .ok (b1, ok) =>
        if !ok then .ok (b1, false)
        else
          if q ≤ 0 then .ok (b1, true)
          else
            match add_limit b1 id s px q ts with
            | .error e => .error e
            | .ok (b2, _) => .ok (b2, trades) : Except Fault (Book × Bool)) = .ok (b1, r)) :
    Inv b1 := by
  cases hc : cancel b id with
  | error e => rw [hc] at h; cases h
  | ok res =>
    obtain ⟨b2, ok⟩ := res
    have hI2 := cancel_inv b hI id b2 ok hc
    rw [hc] at h
    simp only at h
    split at h
    · cases h
      exact hI2
    · split at h
      · cases h
        exact hI2
      · cases ha : add_limit b2 id s px q ts with
        | error e => rw [ha] at h; cases h
        | ok res2 =>
          obtain ⟨b3, tr⟩ := res2
          rw [ha] at h
          cases h
          exact add_limit_inv b2 hI2 id s px q ts _ tr ha

theorem replace_inv (trades : Bool) (b : Book) (hI : Inv b) (id : OrderId)
    (new_px : Option Price) (new_qty : Option Qty) (ts : TimeNs) (b1 : Book) (r : Bool)
    (h : replace trades b id new_px new_qty ts = .ok (b1, r)) : Inv b1 := by
  unfold replace at h
  split at h
  · cases h
    exact hI
  · split at h
    · cases h
    · simp only at h
      split at h
      · exact cancel_then_add_inv trades b hI id _ _ _ ts b1 r h
      · split at h
        · cases h
        · split at h
          · split at h
            · cases h
            · split at h
              · cases h
              · rename_i hat
                cases h
                exact shrink_inv b hI _ _ _ _ hat _
          · exact cancel_then_add_inv trades b hI id _ _ _ ts b1 r h

/-- Every reachable book satisfies the structural invariant. -/
theorem Reachable.inv {b : Book} (hb : Reachable b) : Inv b := by
  induction hb with
  | empty =>
    refine ⟨?_, ?_, ?_, ?_, ?_, ?_, ?_, ?_, ?_, ?_⟩
    · intro s; cases s <;> exact List.Pairwise.nil
    · intro s k L h; cases s <;> cases h
    · intro s k L s1 k1 L1 h; cases s <;> cases h
    · intro s k L a h; cases s <;> cases h
    · intro s k L a h; cases s <;> cases h
    · intro a o c h; cases h
    · intro a o c h; cases h
    · intro a o lp h; cases h
    · intro a o h; cases h
    · intro i a h; cases h
  | add_limit id side px qty ts _ h ih => exact add_limit_inv _ ih id side px qty ts _ _ h
  | add_market id side qty ts _ h ih => exact add_market_inv _ ih id side qty ts _ _ h
  | cancel id _ h ih => exact cancel_inv _ ih id _ _ h
  | replace trades id new_px new_qty ts _ h ih =>
    exact replace_inv trades _ ih id new_px new_qty ts _ _ h

/-- On every reachable book `add_limit` and `add_market` return: the matching loops neither
run out of fuel nor touch a pointer whose target is gone. -/
theorem add_returns (b : Book) (hb : Reachable b) (id : OrderId) (side : Side) (px : Price)
    (qty : Qty) (ts : TimeNs) :
    (∃ r, add_limit b id side px qty ts = .ok r) ∧ (∃ r, add_market b id side qty ts = .ok r) := by
  by_cases hq : 0 < qty
  · constructor
    · obtain ⟨b1, _, made, _, _, hc⟩ := add_limit_spec b hb.inv id side px qty ts hq
      rcases hc with ⟨_, b2, he, _, _⟩ | ⟨_, he⟩
      · exact ⟨_, he⟩
      · exact ⟨_, he⟩
    · obtain ⟨b1, _, made, he, _, _⟩ := add_market_spec b hb.inv id side qty ts hq
      exact ⟨_, he⟩
  · constructor
    · rw [add_limit_eq, if_pos (not_lt.1 hq)]
      exact ⟨_, rfl⟩
    · rw [add_market_eq, if_pos (not_lt.1 hq)]
      exact ⟨_, rfl⟩

/-! ## Market orders -/

theorem match_against_empty (side : Side) (taker_price : Price) (ts : TimeNs) (n : Nat)
    (b : Book) (tq : Qty) (out : List Trade) (he : b.ladder (opposite side) = []) :
    match_against side taker_price ts (n + 1) b tq out = .ok (b, tq, out) := by
  rw [match_against]
  split
  · rw [he]
  · rfl

theorem add_market_empty (b : Book) (id : OrderId) (side : Side) (qty : Qty) (ts : TimeNs)
    (he : b.ladder (opposite side) = []) : add_market b id side qty ts = .ok (b, []) := by
  rw [add_market_eq]
  split
  · rfl
  · rw [match_against_empty side _ ts _ b qty [] he]

/-! ## Bids stay below asks -/

theorem NoCross.of_keys {b b1 : Book} (hn : NoCross b)
    (hk : ∀ s k L1, (k, L1) ∈ b1.ladder s → ∃ L, (k, L) ∈ b.ladder s) : NoCross b1 := by
  intro kb Lb ka La hb ha
  obtain ⟨Lb0, hb0⟩ := hk .BUY kb Lb hb
  obtain ⟨La0, ha0⟩ := hk .SELL ka La ha
  exact hn kb Lb0 ka La0 hb0 ha0

theorem erase_level_if_empty_keys (b : Book) (side : Side) (px : Price) (s : Side) (k : Price)
    (L1 : PriceLevel) (hm : (k, L1) ∈ (erase_level_if_empty b side px).ladder s) :
    (k, L1) ∈ b.ladder s := by
  unfold erase_level_if_empty at hm
  split at hm
  · split at hm
    · rw [Book.set_ladder_ladder] at hm
      split at hm
      · rename_i hs
        subst hs
        exact (AL.erase_sublist _ _).subset hm
      · exact hm
    · exact hm
  · exact hm

/-- What `cancel` does to the ladders and the index, on any book on which it returns. -/
theorem cancel_frame (b : Book) (id : OrderId) (b1 : Book) (r : Bool)
    (h : cancel b id = .ok (b1, r)) :
    (∀ s k L1, (k, L1) ∈ b1.ladder s → ∃ L, (k, L) ∈ b.ladder s) ∧
      (r = false → b1 = b) ∧
      (r = true → ∃ o ord, AL.find b.order_index_ id = some o ∧
        AL.find b.heap o = some ord ∧ b1.order_index_ = AL.erase b.order_index_ ord.id ∧
        b1.next_order = b.next_order ∧ b1.next_level = b.next_level) := by
  unfold cancel at h
  split at h
  · cases h
    exact ⟨fun s k L1 hm => ⟨L1, hm⟩, fun _ => rfl, fun h => by cases h⟩
  · rename_i o hix
    split at h
    · cases h
    · rename_i ord ho
      split at h
      · cases h
      · rename_i lp hlv
        split at h
        · cases h
        · rename_i lvl hat
          simp only at h
          split at h
          · cases h
          · rename_i lvl1 h1 hrem
            have hstore : ∀ s k L1, (k, L1) ∈ (destroy_order (index_erase
                ({ b with heap := h1 }.store_level lp lvl1) ord.id) o).ladder s →
                ∃ L, (k, L) ∈ b.ladder s := by
              intro s k L1 hm
              have : (destroy_order (index_erase
                  ({ b with heap := h1 }.store_level lp lvl1) ord.id) o).ladder s =
                  (b.ladder s).map (fun e => if e.2.self = lp then (e.1, lvl1) else e) := by
                cases s <;> rfl
              rw [this] at hm
              obtain ⟨L0, hL0, _⟩ := store_level_mem _ lp _ k L1 hm
              exact ⟨L0, hL0⟩
            split at h
            · simp only [Except.ok.injEq, Prod.mk.injEq] at h
              obtain ⟨rfl, rfl⟩ := h
              refine ⟨?_, fun h => (by cases h), fun _ => ⟨o, ord, hix, ho, ?_, ?_, ?_⟩⟩
              · intro s k L1 hm
                exact hstore s k L1 (erase_level_if_empty_keys _ _ _ s k L1 hm)
              · unfold erase_level_if_empty
                split
                · split
                  · cases ord.side <;> rfl
                  · rfl
                · rfl
              · unfold erase_level_if_empty
                split
                · split
                  · cases ord.side <;> rfl
                  · rfl
                · rfl
              · unfold erase_level_if_empty
                split
                · split
                  · cases ord.side <;> rfl
                  · rfl
                · rfl
            · simp only [Except.ok.injEq, Prod.mk.injEq] at h
              obtain ⟨rfl, rfl⟩ := h
              exact ⟨hstore, fun h => (by cases h), fun _ => ⟨o, ord, hix, ho, rfl, rfl, rfl⟩⟩

theorem no_cross_of_key_before (side : Side) (k k1 px : Price)
    (h : no_cross side k px = true) (hk : key_before (opposite side) k k1 = true) :
    no_cross side k1 px = true := by
  cases side <;>
    simp only [no_cross, opposite, key_before, decide_eq_true_eq, gt_iff_lt] at h hk ⊢
  · exact lt_trans h hk
  · exact lt_trans hk h

/-- When a matching run stops with taker quantity left, no level of the opposite ladder
can be crossed at the taker price. -/
theorem MatchRun.no_cross_left {side : Side} {px : Price} {ts : TimeNs} {b b1 : Book}
    {tq tq1 : Qty} {made : List Trade} (hrun : MatchRun side px ts b tq b1 tq1 made)
    (hI1 : Inv b1) (hpos : 0 < tq1) :
    ∀ k L, (k, L) ∈ b1.ladder (opposite side) → no_cross side k px = true := by
  intro k L hm
  rcases hrun.stop with h | h | ⟨k0, L0, rest, hl, hc⟩
  · exact absurd hpos (not_lt.2 h)
  · rw [h] at hm
    cases hm
  · have hfront : (k0, L0) ∈ b1.ladder (opposite side) := by
      rw [hl]; exact List.mem_cons_self _ _
    have hp := (hI1.level_ok _ k0 L0 hfront).1
    rw [hp] at hc
    have hs := hI1.sorted (opposite side)
    rw [hl, List.pairwise_cons] at hs
    rw [hl] at hm
    rcases List.mem_cons.1 hm with hm | hm
    · rw [(Prod.mk.inj hm).1]
      exact hc
    · exact no_cross_of_key_before side k0 k px hc (hs.1 _ hm)

theorem MatchRun.keys {side : Side} {px : Price} {ts : TimeNs} {b b1 : Book}
    {tq tq1 : Qty} {made : List Trade} (hrun : MatchRun side px ts b tq b1 tq1 made) :
    ∀ s k L1, (k, L1) ∈ b1.ladder s → ∃ L, (k, L) ∈ b.ladder s := by
  intro s k L1 hm
  rcases side_cases side s with rfl | rfl
  · rw [hrun.own_ladder] at hm
    exact ⟨L1, hm⟩
  · obtain ⟨L, hL, _⟩ := hrun.opp_sub k L1 hm
    exact ⟨L, hL⟩

theorem add_limit_nocross (b : Book) (hI : Inv b) (hn : NoCross b) (id : OrderId) (side : Side)
    (px : Price) (qty : Qty) (ts : TimeNs) (b1 : Book) (T : List Trade)
    (h : add_limit b id side px qty ts = .ok (b1, T)) : NoCross b1 := by
  by_cases hq : 0 < qty
  · obtain ⟨b2, tq1, made, hI2, hrun, hc⟩ := add_limit_spec b hI id side px qty ts hq
    have hn2 : NoCross b2 := hn.of_keys hrun.keys
    rcases hc with ⟨hpos, b3, he, _, hrest⟩ | ⟨_, he⟩
    · rw [he] at h
      cases h
      have hleft := hrun.no_cross_left hI2 hpos
      intro kb Lb ka La hb ha
      cases side
      · have ha2 : (ka, La) ∈ b2.sell_ := by
          have := hrest.opp_ladder
          simp only [opposite, Book.ladder] at this
          rw [← this]
          exact ha
        rcases (hrest.keys kb).1 ⟨Lb, hb⟩ with hk | ⟨L, hL⟩
        · have := hleft ka La ha2
          simp only [no_cross, decide_eq_true_eq, gt_iff_lt] at this
          rw [hk]
          exact this
        · exact hn2 kb L ka La hL ha2
      · have hb2 : (kb, Lb) ∈ b2.buy_ := by
          have := hrest.opp_ladder
          simp only [opposite, Book.ladder] at this
          rw [← this]
          exact hb
        rcases (hrest.keys ka).1 ⟨La, ha⟩ with hk | ⟨L, hL⟩
        · have := hleft kb Lb hb2
          simp only [no_cross, decide_eq_true_eq] at this
          rw [hk]
          exact this
        · exact hn2 kb Lb ka L hb2 hL
    · rw [he] at h
      cases h
      exact hn2
  · rw [add_limit_eq, if_pos (not_lt.1 hq)] at h
    cases h
    exact hn

theorem add_market_nocross (b : Book) (hI : Inv b) (hn : NoCross b) (id : OrderId) (side : Side)
    (qty : Qty) (ts : TimeNs) (b1 : Book) (T : List Trade)
    (h : add_market b id side qty ts = .ok (b1, T)) : NoCross b1 := by
  by_cases hq : 0 < qty
  · obtain ⟨b2, tq1, made, he, _, hrun⟩ := add_market_spec b hI id side qty ts hq
    rw [he] at h
    cases h
    exact hn.of_keys hrun.keys
  · rw [add_market_eq, if_pos (not_lt.1 hq)] at h
    cases h
    exact hn

theorem cancel_nocross (b : Book) (hn : NoCross b) (id : OrderId) (b1 : Book) (r : Bool)
    (h : cancel b id = .ok (b1, r)) : NoCross b1 :=
  hn.of_keys (cancel_frame b id b1 r h).1

theorem cancel_then_add_nocross (trades : Bool) (b : Book) (hI : Inv b) (hn : NoCross b)
    (id : OrderId) (s : Side) (px : Price) (q : Qty) (ts : TimeNs) (b1 : Book) (r : Bool)
    (h : (match cancel b id with
      | .error e => .error e
      | .ok (b1, ok) =>
        if !ok then .ok (b1, false)
        else
          if q ≤ 0 then .ok (b1, true)
          else
            match add_limit b1 id s px q ts with
            | .error e => .error e
            | .ok (b2, _) => .ok (b2, trades) : Except Fault (Book × Bool)) = .ok (b1, r)) :
    NoCross b1 := by
  cases hc : cancel b id with
  | error e => rw [hc] at h; cases h
  | ok res =>
    obtain ⟨b2, ok⟩ := res
    have hI2 := cancel_inv b hI id b2 ok hc
    have hn2 := cancel_nocross b hn id b2 ok hc
    rw [hc] at h
    simp only at h
    split at h
    · cases h
      exact hn2
    · split at h
      · cases h
        exact hn2
      · cases ha : add_limit b2 id s px q ts with
        | error e => rw [ha] at h; cases h
        | ok res2 =>
          obtain ⟨b3, tr⟩ := res2
          rw [ha] at h
          cases h
          exact add_limit_nocross b2 hI2 hn2 id s px q ts _ tr ha

theorem shrink_keys (b : Book) (h1 : Heap) (lp : LevelPtr) (L1 : PriceLevel) (s : Side)
    (k : Price) (L2 : PriceLevel)
    (hm : (k, L2) ∈ ({ b with heap := h1 }.store_level lp L1).ladder s) :
    ∃ L, (k, L) ∈ b.ladder s := by
  rw [Book.store_level_ladder] at hm
  have : ({ b with heap := h1 } : Book).ladder s = b.ladder s := by
    cases s <;> rfl
  rw [this] at hm
  obtain ⟨L0, hL0, _⟩ := store_level_mem _ lp _ k L2 hm
  exact ⟨L0, hL0⟩

theorem replace_nocross (trades : Bool) (b : Book) (hI : Inv b) (hn : NoCross b) (id : OrderId)
    (new_px : Option Price) (new_qty : Option Qty) (ts : TimeNs) (b1 : Book) (r : Bool)
    (h : replace trades b id new_px new_qty ts = .ok (b1, r)) : NoCross b1 := by
  unfold replace at h
  split at h
  · cases h
    exact hn
  · split at h
    · cases h
    · simp only at h
      split at h
      · exact cancel_then_add_nocross trades b hI hn id _ _ _ ts b1 r h
      · split at h
        · cases h
        · split at h
          · split at h
            · cases h
            · split at h
              · cases h
              · cases h
                exact hn.of_keys (shrink_keys b _ _ _)
          · exact cancel_then_add_nocross trades b hI hn id _ _ _ ts b1 r h

/-- On every reachable book every bid key is below every ask key. -/
theorem Reachable.nocross {b : Book} (hb : Reachable b) : NoCross b := by
  induction hb with
  | empty =>
    intro kb Lb ka La h
    cases h
  | add_limit id side px qty ts hb0 h ih =>
    exact add_limit_nocross _ hb0.inv ih id side px qty ts _ _ h
  | add_market id side qty ts hb0 h ih =>
    exact add_market_nocross _ hb0.inv ih id side qty ts _ _ h
  | cancel id _ h ih => exact cancel_nocross _ ih id _ _ h
  | replace trades id new_px new_qty ts hb0 h ih =>
    exact replace_nocross trades _ hb0.inv ih id new_px new_qty ts _ _ h

/-! ## Scenarios evaluated on the code -/

/-- C1, on the code: after `add_limit(101, SELL, 1010, 100, 1)` and
`add_limit(201, BUY, 1000, 50, 2)` on the empty book, `add_limit(202, BUY, 1015, 75, 3)`
returns no trade although 1015 is through the best ask 1010; the ask level is erased with
order 101 still in the index, and the whole quantity rests at 1015. -/
theorem crossing_limit_emits_no_trade :
    ∃ b1 b2 b3, add_limit Book.empty 101 .SELL 1010 100 1 = .ok (b1, []) ∧
      add_limit b1 201 .BUY 1000 50 2 = .ok (b2, []) ∧
      best_ask b2 = some 1010 ∧
      add_limit b2 202 .BUY 1015 75 3 = .ok (b3, []) ∧
      best_ask b3 = none ∧ depth_at b3 .SELL 1010 = 0 ∧ best_bid b3 = some 1015 ∧
      AL.find b3.order_index_ 101 = some 1 :=
  ⟨_, _, _, rfl, rfl, rfl, rfl, rfl, rfl, rfl, rfl⟩

/-- C2, on the code, for N = 1: after `add_limit(1, BUY, 100, 10, 1)` on the empty book,
`add_limit(2, SELL, 100, 10, 2)` returns no trade; afterwards the sell ladder holds the
aggressor and the index holds both ids. -/
theorem fifo_aggressor_emits_no_trade :
    ∃ b1 b2, add_limit Book.empty 1 .BUY 100 10 1 = .ok (b1, []) ∧
      add_limit b1 2 .SELL 100 10 2 = .ok (b2, []) ∧
      b2.buy_ = [] ∧ depth_at b2 .SELL 100 = 10 ∧
      AL.find b2.order_index_ 1 = some 1 ∧ AL.find b2.order_index_ 2 = some 2 :=
  ⟨_, _, rfl, rfl, rfl, rfl, rfl, rfl⟩

/-- C3, on the code: with orders 1 and 2 resting at SELL 100 and order 1 cancelled,
`add_limit(3, BUY, 100, 5, 3)` returns one trade, whose `taker_id` is 0 and not 3. -/
theorem trade_taker_id_is_zero :
    ∃ b1 b2 b3 b4, add_limit Book.empty 1 .SELL 100 10 1 = .ok (b1, []) ∧
      add_limit b1 2 .SELL 100 10 2 = .ok (b2, []) ∧
      cancel b2 1 = .ok (b3, true) ∧
      add_limit b3 3 .BUY 100 5 3 = .ok (b4,
        [{ taker_id := 0, maker_id := 2, taker_side := .BUY, price := 100, qty := 5, ts := 3 }]) :=
  ⟨_, _, _, _, rfl, rfl, rfl, rfl⟩

/-- C9, on the code: with orders 1 (quantity 10) and 2 (quantity 5) resting at BUY 100,
`cancel(2)` returns true and erases the level although order 1 remains in it: the depth
drops from 15 to 0 instead of 10, order 1 stays in the index and cancelling it
afterwards dereferences the erased level. -/
theorem cancel_erases_occupied_level :
    ∃ b1 b2 b3, add_limit Book.empty 1 .BUY 100 10 1 = .ok (b1, []) ∧
      add_limit b1 2 .BUY 100 5 2 = .ok (b2, []) ∧
      depth_at b2 .BUY 100 = 15 ∧
      cancel b2 2 = .ok (b3, true) ∧
      depth_at b3 .BUY 100 = 0 ∧ b3.buy_ = [] ∧
      AL.find b3.order_index_ 1 = some 1 ∧
      cancel b3 1 = .error .undefined_behaviour :=
  ⟨_, _, _, rfl, rfl, rfl, rfl, rfl, rfl, rfl, rfl⟩

/-- C10, on the code: on the book holding order 7 (SELL 1020, quantity 30), adding the
non-crossing order 8 (SELL 1020, quantity 40) and cancelling it does not restore the
book: the depth at SELL 1020 is 0 instead of 30 and the best ask is gone. -/
theorem add_then_cancel_loses_level :
    ∃ b1 b2 b3, add_limit Book.empty 7 .SELL 1020 30 1 = .ok (b1, []) ∧
      depth_at b1 .SELL 1020 = 30 ∧ best_ask b1 = some 1020 ∧ best_bid b1 = none ∧
      AL.find b1.order_index_ 8 = none ∧
      add_limit b1 8 .SELL 1020 40 2 = .ok (b2, []) ∧
      cancel b2 8 = .ok (b3, true) ∧
      depth_at b3 .SELL 1020 = 0 ∧ best_ask b3 = none :=
  ⟨_, _, _, rfl, rfl, rfl, rfl, rfl, rfl, rfl, rfl, rfl⟩

/-! ## Calls that change nothing -/

/-- C7: for every book and all arguments with `qty ≤ 0`, `add_limit` and `add_market`
return an empty trade list and the book they were given. -/
theorem add_nonpositive_qty_noop (b : Book) (id : OrderId) (side : Side) (px : Price)
    (qty : Qty) (ts : TimeNs) (hq : qty ≤ 0) :
    add_limit b id side px qty ts = .ok (b, []) ∧ add_market b id side qty ts = .ok (b, []) := by
  simp [add_limit, add_market, hq]

theorem add_nonpositive_qty_noop_witness :
    ∃ b, add_limit Book.empty 1 .BUY 100 10 1 = .ok (b, []) ∧ (-5 : Qty) ≤ 0 ∧
      add_limit b 5 .SELL 90 (-5) 2 = .ok (b, []) ∧ add_market b 5 .SELL (-5) 2 = .ok (b, []) :=
  ⟨_, rfl, by decide, add_nonpositive_qty_noop _ 5 .SELL 90 (-5) 2 (by decide)⟩

/-- C8: for every book and every id that is not in the order index, `cancel` returns
false and `replace` returns false for all its other arguments, and both return the
book they were given. -/
theorem cancel_replace_unknown_id (b : Book) (id : OrderId)
    (hid : AL.find b.order_index_ id = none) :
    cancel b id = .ok (b, false) ∧
      ∀ (trades : Bool) (new_px : Option Price) (new_qty : Option Qty) (ts : TimeNs),
        replace trades b id new_px new_qty ts = .ok (b, false) := by
  simp [cancel, replace, hid]

theorem cancel_replace_unknown_id_witness :
    ∃ b, add_limit Book.empty 1 .BUY 100 10 1 = .ok (b, []) ∧
      AL.find b.order_index_ 9 = none ∧
      cancel b 9 = .ok (b, false) ∧
      ∀ (trades : Bool) (new_px : Option Price) (new_qty : Option Qty) (ts : TimeNs),
        replace trades b 9 new_px new_qty ts = .ok (b, false) :=
  ⟨_, rfl, rfl, cancel_replace_unknown_id _ 9 rfl⟩

/-! ## Trades and resting remainder of `add_limit` -/

/-- C4: on every reachable book, every trade `t` returned by `add_limit(id, side, px, qty, ts)`
executes at the price of its maker: before the call an allocated order with id
`t.maker_id`, side opposite to the taker and price `t.price` was linked to a level filed
under `t.price` in the opposite ladder.  Moreover `t.price ≤ px` for a buy,
`px ≤ t.price` for a sell, `t.taker_side = side` and `t.ts = ts`. -/
theorem add_limit_trades_at_maker_price (b : Book) (hb : Reachable b) (id : OrderId)
    (side : Side) (px : Price) (qty : Qty) (ts : TimeNs) (b1 : Book) (T : List Trade)
    (h : add_limit b id side px qty ts = .ok (b1, T)) (t : Trade) (ht : t ∈ T) :
    (∃ a o L, AL.find b.heap a = some o ∧ o.id = t.maker_id ∧ o.side = opposite side ∧
        o.px = t.price ∧ o.level = some L.self ∧ (t.price, L) ∈ b.ladder (opposite side)) ∧
      (side = .BUY → t.price ≤ px) ∧ (side = .SELL → px ≤ t.price) ∧
      t.taker_side = side ∧ t.ts = ts := by
  have hI := hb.inv
  by_cases hq : 0 < qty
  · obtain ⟨b2, tq1, made, _, hrun, hc⟩ := add_limit_spec b hI id side px qty ts hq
    have hT : T = made := by
      rcases hc with ⟨_, b3, he, _, _⟩ | ⟨_, he⟩
      · rw [he] at h
        cases h
        rfl
      · rw [he] at h
        cases h
        rfl
    subst hT
    obtain ⟨hsd, hts, hnc, a, o, L, ho, hid, hlv, hm⟩ := hrun.trades t ht
    have hpl := (hI.place_ok a o L.self ho hlv).2 _ _ L hm rfl
    refine ⟨⟨a, o, L, ho, hid, hpl.1, hpl.2, hlv, hm⟩, ?_, ?_, hsd, hts⟩
    · intro hs
      subst hs
      simpa [no_cross] using hnc
    · intro hs
      subst hs
      simpa [no_cross] using hnc
  · rw [add_limit_eq, if_pos (not_lt.1 hq)] at h
    cases h
    cases ht

theorem add_limit_trades_at_maker_price_witness :
    ∃ b b1 t, Reachable b ∧ add_limit b 3 .BUY 100 5 3 = .ok (b1, [t]) ∧ t ∈ [t] ∧
      t.maker_id = 2 ∧ t.price = 100 ∧
      ((∃ a o L, AL.find b.heap a = some o ∧ o.id = t.maker_id ∧ o.side = opposite .BUY ∧
          o.px = t.price ∧ o.level = some L.self ∧ (t.price, L) ∈ b.ladder (opposite .BUY)) ∧
        (Side.BUY = .BUY → t.price ≤ 100) ∧ (Side.BUY = .SELL → 100 ≤ t.price) ∧
        t.taker_side = .BUY ∧ t.ts = 3) :=
  ⟨_, _, _,
    Reachable.cancel 1
      (Reachable.add_limit 2 .SELL 100 10 2
        (Reachable.add_limit 1 .SELL 100 10 1 Reachable.empty rfl) rfl) rfl,
    rfl, List.mem_singleton.2 rfl, rfl, rfl,
    add_limit_trades_at_maker_price _
      (Reachable.cancel 1
        (Reachable.add_limit 2 .SELL 100 10 2
          (Reachable.add_limit 1 .SELL 100 10 1 Reachable.empty rfl) rfl) rfl)
      3 .BUY 100 5 3 _ _ rfl _ (List.mem_singleton.2 rfl)⟩

/-- C5: on every reachable book, the prices of the trades returned by `add_limit` or
`add_market` never improve for the taker along the returned list: every earlier trade of a
buy has a price at most that of every later one, and every earlier trade of a sell has a
price at least that of every later one. -/
theorem trade_prices_monotone (b : Book) (hb : Reachable b) (id : OrderId) (side : Side)
    (px : Price) (qty : Qty) (ts : TimeNs) (b1 : Book) (T : List Trade)
    (h : add_limit b id side px qty ts = .ok (b1, T) ∨
      add_market b id side qty ts = .ok (b1, T)) :
    (side = .BUY → T.Pairwise (fun t u => t.price ≤ u.price)) ∧
      (side = .SELL → T.Pairwise (fun t u => u.price ≤ t.price)) := by
  have hI := hb.inv
  have key : T.Pairwise (fun t u => no_better side t.price u.price) := by
    by_cases hq : 0 < qty
    · rcases h with h | h
      · obtain ⟨b2, tq1, made, _, hrun, hc⟩ := add_limit_spec b hI id side px qty ts hq
        rcases hc with ⟨_, b3, he, _, _⟩ | ⟨_, he⟩
        · rw [he] at h
          cases h
          exact hrun.prices
        · rw [he] at h
          cases h
          exact hrun.prices
      · obtain ⟨b2, tq1, made, he, _, hrun⟩ := add_market_spec b hI id side qty ts hq
        rw [he] at h
        cases h
        exact hrun.prices
    · rcases h with h | h
      · rw [add_limit_eq, if_pos (not_lt.1 hq)] at h
        cases h
        exact List.Pairwise.nil
      · rw [add_market_eq, if_pos (not_lt.1 hq)] at h
        cases h
        exact List.Pairwise.nil
  constructor
  · intro hs
    subst hs
    exact key
  · intro hs
    subst hs
    exact key

theorem trade_prices_monotone_witness :
    ∃ b b1 t u, Reachable b ∧ add_market b 9 .BUY 15 7 = .ok (b1, [t, u]) ∧
      t.price = 100 ∧ u.price = 101 ∧
      ((Side.BUY = .BUY → [t, u].Pairwise (fun t u => t.price ≤ u.price)) ∧
        (Side.BUY = .SELL → [t, u].Pairwise (fun t u => u.price ≤ t.price))) :=
  ⟨_, _, _, _,
    Reachable.cancel 3 (Reachable.cancel 1
      (Reachable.add_limit 4 .SELL 101 10 4 (Reachable.add_limit 3 .SELL 101 10 3
        (Reachable.add_limit 2 .SELL 100 10 2
          (Reachable.add_limit 1 .SELL 100 10 1 Reachable.empty rfl) rfl) rfl) rfl) rfl) rfl,
    rfl, rfl, rfl,
    trade_prices_monotone _
      (Reachable.cancel 3 (Reachable.cancel 1
        (Reachable.add_limit 4 .SELL 101 10 4 (Reachable.add_limit 3 .SELL 101 10 3
          (Reachable.add_limit 2 .SELL 100 10 2
            (Reachable.add_limit 1 .SELL 100 10 1 Reachable.empty rfl) rfl) rfl) rfl) rfl) rfl)
      9 .BUY 0 15 7 _ _ (Or.inr rfl)⟩

/-- C11, on the code: with orders 1 and 2 resting at BUY 100 (quantity 10 each),
`replace(1, none, none, 3)` throws `std::bad_optional_access`, and `replace(1, 100, 10, 3)`
cancels and re-adds order 1: afterwards it is allocated anew, carries timestamp 3 and sits
behind order 2 at the tail of the level. -/
theorem replace_without_change_is_not_noop :
    ∃ b1 b2 b3, add_limit Book.empty 1 .BUY 100 10 1 = .ok (b1, []) ∧
      add_limit b1 2 .BUY 100 10 2 = .ok (b2, []) ∧
      (∀ trades, replace trades b2 1 none none 3 = .error .bad_optional_access) ∧
      (∀ trades, replace trades b2 1 (some 100) (some 10) 3 = .ok (b3, trades)) ∧
      AL.find b2.order_index_ 1 = some 1 ∧
      (AL.find b2.heap 1).map (fun o => (o.ts, o.prev, o.next)) = some (1, none, some 2) ∧
      AL.find b3.order_index_ 1 = some 3 ∧
      (AL.find b3.heap 3).map (fun o => (o.ts, o.prev, o.next)) = some (3, some 2, none) ∧
      b3 ≠ b2 :=
  ⟨_, _, _, rfl, rfl, fun _ => rfl, fun _ => rfl, rfl, rfl, rfl, rfl, by decide⟩

/-- C13, on the code: with order 1 resting alone at BUY 100 with quantity 10,
`replace(1, none, 0, 2)` returns true but shrinks the order to quantity 0 in place: id 1
stays in the index and the level stays in the ladder, whereas `cancel(1)` empties the
book. -/
theorem replace_to_zero_is_not_cancel :
    ∃ b1 b2 b3, add_limit Book.empty 1 .BUY 100 10 1 = .ok (b1, []) ∧
      (∀ trades, replace trades b1 1 none (some 0) 2 = .ok (b2, true)) ∧
      cancel b1 1 = .ok (b3, true) ∧
      AL.find b2.order_index_ 1 = some 1 ∧
      (AL.find b2.heap 1).map Order.qty = some 0 ∧
      best_bid b2 = some 100 ∧
      AL.find b3.order_index_ 1 = none ∧ best_bid b3 = none ∧ b2 ≠ b3 :=
  ⟨_, _, _, rfl, fun _ => rfl, rfl, rfl, rfl, rfl, rfl, rfl, by decide⟩

/-- C17, on the code: with orders 1 and 2 resting at SELL 100, order 1 cancelled and order 2
replaced to quantity 0 (unchanged price), `add_limit(3, BUY, 100, 5, 4)` returns a trade of
quantity 0; after a replace to quantity -4 it returns a trade of quantity -4. -/
theorem trade_with_nonpositive_qty :
    ∃ b1 b2 b3 b4 b5 b6 b7, add_limit Book.empty 1 .SELL 100 10 1 = .ok (b1, []) ∧
      add_limit b1 2 .SELL 100 10 2 = .ok (b2, []) ∧
      cancel b2 1 = .ok (b3, true) ∧
      (∀ trades, replace trades b3 2 none (some 0) 3 = .ok (b4, true)) ∧
      add_limit b4 3 .BUY 100 5 4 = .ok (b5,
        [{ taker_id := 0, maker_id := 2, taker_side := .BUY, price := 100, qty := 0, ts := 4 }]) ∧
      (∀ trades, replace trades b3 2 none (some (-4)) 3 = .ok (b6, true)) ∧
      add_limit b6 3 .BUY 100 5 4 = .ok (b7,
        [{ taker_id := 0, maker_id := 2, taker_side := .BUY, price := 100, qty := -4, ts := 4 }]) :=
  ⟨_, _, _, _, _, _, _, rfl, rfl, rfl, fun _ => rfl, rfl, fun _ => rfl, rfl⟩

/-- C18, on the code: after `add_limit(1, BUY, 100, 10, 1)` on the empty book the level at
BUY 100 has `total_qty` 10 while the walk from `head` along `next` sums to 0, so the
assertion `sum == lvl.total_qty` of `validate()` fails. -/
theorem validate_fails_after_first_add :
    ∃ b lvl, add_limit Book.empty 1 .BUY 100 10 1 = .ok (b, []) ∧
      b.buy_ = [(100, lvl)] ∧ lvl.total_qty = 10 ∧ lvl.head = none ∧
      validate_queue .BUY 100 lvl.self (b.heap.length + 1) b.heap lvl.head 0 = .ok (some 0) ∧
      validate b = .ok false :=
  ⟨_, _, rfl, rfl, rfl, rfl, rfl, rfl⟩

/-- C19, on the code: after `add_limit(1, SELL, 100, 10, 1)` the level at SELL 100 is in the
ladder with `empty()` true although order 1 is its tail; after `add_limit(2, BUY, 100, 5, 2)`
the level is erased from the ladder while id 1 is still in the index and its order still
points to the erased level. -/
theorem index_and_ladders_disagree :
    ∃ b1 b2 lvl, add_limit Book.empty 1 .SELL 100 10 1 = .ok (b1, []) ∧
      b1.sell_ = [(100, lvl)] ∧ lvl.empty = true ∧ lvl.tail = some 1 ∧
      AL.find b1.order_index_ 2 = none ∧
      add_limit b1 2 .BUY 100 5 2 = .ok (b2, []) ∧
      b2.sell_ = [] ∧ AL.find b2.order_index_ 1 = some 1 ∧
      (AL.find b2.heap 1).map Order.level = some (some lvl.self) ∧
      b2.level_at lvl.self = none :=
  ⟨_, _, _, rfl, rfl, rfl, rfl, rfl, rfl, rfl, rfl, rfl, rfl⟩

/-- C20, on the code: `push_back(o)` on a level with `head` and `tail` null makes `o` the
tail and leaves `head` null, so `empty()` is true for a level that has the member `o`. -/
theorem push_back_leaves_head_null :
    ∃ lvl h,
      PriceLevel.push_back
        { self := 1, price := 100, head := none, tail := none, total_qty := 0 }
        [(1, { id := 7, side := .BUY, px := 100, qty := 10, ts := 1,
               prev := none, next := none, level := none })] 1 = .ok (lvl, h) ∧
      lvl.tail = some 1 ∧ lvl.head = none ∧ lvl.empty = true ∧ lvl.total_qty = 10 ∧
      (AL.find h 1).map Order.level = some (some 1) :=
  ⟨_, _, rfl, rfl, rfl, rfl, rfl, rfl⟩

/-! ## A market order never rests -/

/-- C15: on every reachable book `add_market(id, side, qty, ts)` returns, leaves the ladder
of the taker's own side unchanged (hence every depth and the best price of that side), and
adds no entry to the index; when the opposite ladder is empty it returns no trade and the
book it was given. -/
theorem add_market_never_rests (b : Book) (hb : Reachable b) (id : OrderId) (side : Side)
    (qty : Qty) (ts : TimeNs) :
    ∃ b1 T, add_market b id side qty ts = .ok (b1, T) ∧
      b1.ladder side = b.ladder side ∧
      (∀ p, depth_at b1 side p = depth_at b side p) ∧
      best_price b1 side = best_price b side ∧
      (∀ i c, AL.find b1.order_index_ i = some c → AL.find b.order_index_ i = some c) ∧
      (b.ladder (opposite side) = [] → b1 = b ∧ T = []) := by
  have key : ∃ b1 T, add_market b id side qty ts = .ok (b1, T) ∧
      b1.ladder side = b.ladder side ∧
      (∀ i c, AL.find b1.order_index_ i = some c → AL.find b.order_index_ i = some c) := by
    by_cases hq : 0 < qty
    · obtain ⟨b1, tq1, made, he, _, hrun⟩ := add_market_spec b hb.inv id side qty ts hq
      exact ⟨b1, made, he, hrun.own_ladder, hrun.index_sub⟩
    · refine ⟨b, [], ?_, rfl, fun _ _ h => h⟩
      rw [add_market_eq, if_pos (not_lt.1 hq)]
  obtain ⟨b1, T, he, hl, hix⟩ := key
  refine ⟨b1, T, he, hl, ?_, ?_, hix, ?_⟩
  · intro p
    simp only [depth_at, hl]
  · simp only [best_price, hl]
  · intro hempty
    rw [add_market_empty b id side qty ts hempty] at he
    cases he
    exact ⟨rfl, rfl⟩

theorem add_market_never_rests_witness :
    ∃ b, Reachable b ∧ b.ladder (opposite .BUY) = [] ∧ best_price b .BUY = some 1000 ∧
      ∃ b1 T, add_market b 104 .BUY 60 5 = .ok (b1, T) ∧
        b1.ladder .BUY = b.ladder .BUY ∧
        (∀ p, depth_at b1 .BUY p = depth_at b .BUY p) ∧
        best_price b1 .BUY = best_price b .BUY ∧
        (∀ i c, AL.find b1.order_index_ i = some c → AL.find b.order_index_ i = some c) ∧
        (b.ladder (opposite .BUY) = [] → b1 = b ∧ T = []) :=
  ⟨_, Reachable.add_limit 201 .BUY 1000 50 2 Reachable.empty rfl, rfl, rfl,
    add_market_never_rests _ (Reachable.add_limit 201 .BUY 1000 50 2 Reachable.empty rfl)
      104 .BUY 60 5⟩

/-! ## The book is never crossed -/

/-- C16: in every book state reachable from the empty book by `add_limit`, `add_market`,
`cancel` and `replace` calls, when `best_bid()` and `best_ask()` are both defined the best
bid is strictly below the best ask. -/
theorem crossed_book_never_observable (b : Book) (hb : Reachable b) (bid ask : Price)
    (hbid : best_bid b = some bid) (hask : best_ask b = some ask) : bid < ask := by
  have hn := hb.nocross
  unfold best_bid best_price at hbid
  unfold best_ask best_price at hask
  simp only [Book.ladder] at hbid hask
  cases hbl : b.buy_ with
  | nil => rw [hbl] at hbid; cases hbid
  | cons eb restb =>
    cases hsl : b.sell_ with
    | nil => rw [hsl] at hask; cases hask
    | cons ea resta =>
      obtain ⟨kb, Lb⟩ := eb
      obtain ⟨ka, La⟩ := ea
      rw [hbl] at hbid
      rw [hsl] at hask
      simp only [Option.some.injEq] at hbid hask
      subst hbid
      subst hask
      exact hn kb Lb ka La (by rw [hbl]; exact List.mem_cons_self _ _)
        (by rw [hsl]; exact List.mem_cons_self _ _)

theorem crossed_book_never_observable_witness :
    ∃ b, Reachable b ∧ best_bid b = some 1000 ∧ best_ask b = some 1010 ∧
      (1000 : Price) < 1010 :=
  ⟨_, Reachable.add_limit 201 .BUY 1000 50 2
      (Reachable.add_limit 101 .SELL 1010 100 1 Reachable.empty rfl) rfl, rfl, rfl,
    crossed_book_never_observable _
      (Reachable.add_limit 201 .BUY 1000 50 2
        (Reachable.add_limit 101 .SELL 1010 100 1 Reachable.empty rfl) rfl) 1000 1010 rfl rfl⟩

/-! ## Scenarios evaluated on the code: `replace` of an order whose level was erased -/

/-- C12, on the code: after `add_limit(1, BUY, 100, 10, 1)` and the crossing
`add_limit(2, SELL, 100, 5, 2)`, which erases the level at BUY 100 without trading, id 1 is
still in the index and its order (BUY, price 100, quantity 10) still points to the erased
level; `replace(1, none, 5, 3)`, a shrink with `0 < 5 < 10`, reads and writes
`lvl->total_qty` through that dangling pointer instead of returning true. -/
theorem replace_shrink_on_erased_level :
    ∃ b1 b2, add_limit Book.empty 1 .BUY 100 10 1 = .ok (b1, []) ∧
      add_limit b1 2 .SELL 100 5 2 = .ok (b2, []) ∧
      AL.find b2.order_index_ 1 = some 1 ∧
      (AL.find b2.heap 1).map (fun o => (o.side, o.px, o.qty, o.level)) =
        some (.BUY, 100, 10, some 1) ∧
      b2.level_at 1 = none ∧ b2.buy_ = [] ∧ depth_at b2 .BUY 100 = 0 ∧
      (∀ trades, replace trades b2 1 none (some 5) 3 = .error .undefined_behaviour) ∧
      (∀ trades, replace trades b2 1 (some 100) (some 5) 3 = .error .undefined_behaviour) :=
  ⟨_, _, rfl, rfl, rfl, rfl, by decide, rfl, rfl, fun _ => rfl, fun _ => rfl⟩

/-- C14, on the code: after `add_limit(1, BUY, 100, 10, 1)`, `add_limit(2, BUY, 100, 5, 2)`
and `cancel(2)`, which erases the level at BUY 100 although order 1 is still queued there,
id 1 is still in the index and its order (BUY, price 100, quantity 10) points to the erased
level; `replace(1, 101, none, 3)` (price change) and `replace(1, none, 20, 3)` (size
increase) call `cancel(1)`, which reads `lvl->price` through that dangling pointer: no book
results and nothing rests at BUY 101 or at the tail of BUY 100. -/
theorem replace_readd_on_erased_level :
    ∃ b1 b2 b3, add_limit Book.empty 1 .BUY 100 10 1 = .ok (b1, []) ∧
      add_limit b1 2 .BUY 100 5 2 = .ok (b2, []) ∧
      cancel b2 2 = .ok (b3, true) ∧
      AL.find b3.order_index_ 1 = some 1 ∧
      (AL.find b3.heap 1).map (fun o => (o.side, o.px, o.qty, o.level)) =
        some (.BUY, 100, 10, some 1) ∧
      b3.level_at 1 = none ∧ b3.buy_ = [] ∧
      cancel b3 1 = .error .undefined_behaviour ∧
      (∀ trades, replace trades b3 1 (some 101) none 3 = .error .undefined_behaviour) ∧
      (∀ trades, replace trades b3 1 none (some 20) 3 = .error .undefined_behaviour) :=
  ⟨_, _, _, rfl, rfl, rfl, rfl, rfl, by decide, rfl, rfl, fun _ => rfl, fun _ => rfl⟩

end OrderBookSim
